import Mathlib

/-!
Verification of the VitalPath route computation engine
(`backend/app/algorithm/router.py`) against its natural-language
specification.  The Python functions are shallowly embedded as Lean
definitions over exact rational arithmetic; floating point noise is not
modelled, and the great-circle distance function (which is transcendental)
is passed as an explicit parameter wherever a definition needs it.
-/

namespace VitalPath

/-! ## Geometry helpers -/

/-- Python float modulo for a positive modulus: `x % m = x - m * floor (x / m)`. -/
def pymod (x m : ℚ) : ℚ := x - m * ⌊x / m⌋

/-- Embeds `_angle_diff_deg`: signed smallest difference `a2 - a1` in `[-180, 180]`. -/
def angle_diff_deg (a2 a1 : ℚ) : ℚ := pymod (a2 - a1 + 540) 360 - 180

/-- Embeds `_classify_maneuver` from router.py (lines 767-775). -/
def classify_maneuver (delta : ℚ) : String :=
  if |delta| < 20 then "continue"
  else if |delta| < 60 then (if delta > 0 then "slight_right" else "slight_left")
  else if |delta| < 135 then (if delta > 0 then "right" else "left")
  else "uturn"

/-- C6: turn classification is a pure function of the signed bearing delta with
thresholds 20, 60, 135 on the absolute value, direction chosen by sign, and the
five concrete examples from the spec. -/
theorem classify_maneuver_spec :
    (∀ d : ℚ,
      (|d| < 20 → classify_maneuver d = "continue") ∧
      (20 ≤ |d| → |d| < 60 → 0 < d → classify_maneuver d = "slight_right") ∧
      (20 ≤ |d| → |d| < 60 → d < 0 → classify_maneuver d = "slight_left") ∧
      (60 ≤ |d| → |d| < 135 → 0 < d → classify_maneuver d = "right") ∧
      (60 ≤ |d| → |d| < 135 → d < 0 → classify_maneuver d = "left") ∧
      (135 ≤ |d| → classify_maneuver d = "uturn")) ∧
    classify_maneuver 10 = "continue" ∧
    classify_maneuver 45 = "slight_right" ∧
    classify_maneuver 90 = "right" ∧
    classify_maneuver (-90) = "left" ∧
    classify_maneuver 170 = "uturn" := by
  refine ⟨fun d => ⟨?_, ?_, ?_, ?_, ?_, ?_⟩, by decide, by decide, by decide, by decide, by decide⟩
  · intro h
    simp [classify_maneuver, h]
  · intro h1 h2 h3
    simp [classify_maneuver, not_lt.mpr h1, h2, h3]
  · intro h1 h2 h3
    simp [classify_maneuver, not_lt.mpr h1, h2, not_lt.mpr h3.le]
  · intro h1 h2 h3
    simp [classify_maneuver, not_lt.mpr (by linarith : (20:ℚ) ≤ |d|), not_lt.mpr h1, h2, h3]
  · intro h1 h2 h3
    simp [classify_maneuver, not_lt.mpr (by linarith : (20:ℚ) ≤ |d|), not_lt.mpr h1, h2,
      not_lt.mpr h3.le]
  · intro h1
    simp [classify_maneuver, not_lt.mpr (by linarith : (20:ℚ) ≤ |d|),
      not_lt.mpr (by linarith : (60:ℚ) ≤ |d|), not_lt.mpr h1]

/-- Closed witness for C6 at the concrete input `delta = 90`. -/
theorem classify_maneuver_spec_witness : classify_maneuver 90 = "right" :=
  (classify_maneuver_spec.1 90).2.2.2.1 (by norm_num) (by norm_num) (by norm_num)

/-! ## Visualization sampler: `_downsample_segments` (router.py lines 169-184) -/

/-- Loop body of `_downsample_segments`: while fewer than `max_n` items collected,
take `segs[int t]` (breaking out when the index passes the end) and advance `t`
by `step`.  The fuel argument is the remaining number of items to collect, which
mirrors the Python condition `len(out) < max_n`. -/
def downsample_aux {α : Type} (segs : List α) (step : ℚ) : ℕ → ℚ → List α
  | 0, _ => []
  | r + 1, t =>
    match segs[(⌊t⌋).toNat]? with
    | none => []
    | some s => s :: downsample_aux segs step r (t + step)

/-- Embeds `_downsample_segments`: lists of size at most `max_n` are returned
unchanged, larger lists are sampled at indices `int (k * n / max_n)`. -/
def downsample_segments {α : Type} (segs : List α) (max_n : ℕ) : List α :=
  if segs.length ≤ max_n then segs
  else downsample_aux segs ((segs.length : ℚ) / (max_n : ℚ)) max_n 0

theorem downsample_aux_length {α : Type} (segs : List α) (step : ℚ) :
    ∀ (r : ℕ) (t : ℚ), (downsample_aux segs step r t).length ≤ r := by
  intro r
  induction r with
  | zero => intro t; simp [downsample_aux]
  | succ n ih =>
    intro t
    rw [downsample_aux]
    cases h : segs[(⌊t⌋).toNat]? with
    | none => simp
    | some s => simpa using Nat.succ_le_succ (ih (t + step))

/-- C7 counterexample: on the four-element list `[0, 1, 2, 3]` with `max_n = 2`
the sampler returns `[0, 2]`, which does not contain the last element `3`,
refuting the claim that the last segment is always preserved when the input
size is at least `max_n`. -/
theorem downsample_segments_no_last :
    downsample_segments [0, 1, 2, 3] 2 = [0, 2] ∧
    ([0, 1, 2, 3] : List ℕ).getLast? = some 3 ∧
    (3 : ℕ) ∉ downsample_segments [0, 1, 2, 3] 2 := by
  have hev : downsample_segments [0, 1, 2, 3] 2 = [0, 2] := by
    norm_num [downsample_segments, downsample_aux]
    decide
  refine ⟨hev, by decide, ?_⟩
  intro h
  rw [hev] at h
  simp at h

/-- C7 (amended): for an input of size at least `max_n ≥ 1` the sampler returns
at most `max_n` segments and preserves the first segment; the last segment is
preserved when the input size is exactly `max_n` (the input is then returned
unchanged), but may be dropped for strictly larger inputs. -/
theorem downsample_segments_amended {α : Type} (segs : List α) (max_n : ℕ)
    (h1 : 1 ≤ max_n) (h2 : max_n ≤ segs.length) :
    (downsample_segments segs max_n).length ≤ max_n ∧
    (downsample_segments segs max_n).head? = segs.head? ∧
    (segs.length = max_n → downsample_segments segs max_n = segs) := by
  by_cases hle : segs.length ≤ max_n
  · refine ⟨?_, ?_, ?_⟩ <;> simp [downsample_segments, hle]
  · have hlen : max_n < segs.length := lt_of_not_ge hle
    refine ⟨?_, ?_, ?_⟩
    · simpa [downsample_segments, hle] using
        downsample_aux_length segs ((segs.length : ℚ) / (max_n : ℚ)) max_n 0
    · obtain ⟨r, rfl⟩ : ∃ r, max_n = r + 1 := ⟨max_n - 1, by omega⟩
      have hne : segs ≠ [] := by
        intro h
        rw [h] at hlen
        simp at hlen
      obtain ⟨a, tl, rfl⟩ := List.exists_cons_of_ne_nil hne
      simp only [downsample_segments, hle, if_false]
      rw [downsample_aux]
      norm_num
    · intro h
      omega

/-- Closed witness for the amended C7 at the concrete input `[5, 6, 7]`, `max_n = 2`. -/
theorem downsample_segments_amended_witness :
    (downsample_segments [5, 6, 7] 2).length ≤ 2 ∧
    (downsample_segments [5, 6, 7] 2).head? = ([5, 6, 7] : List ℕ).head? ∧
    (([5, 6, 7] : List ℕ).length = 2 → downsample_segments [5, 6, 7] 2 = [5, 6, 7]) :=
  downsample_segments_amended [5, 6, 7] 2 (by norm_num) (by norm_num)

/-! ## Road graph model

A networkx `MultiDiGraph` as used by router.py: nodes carry coordinates
(`x` = longitude, `y` = latitude), edges are keyed parallel directed edges
with a `length` attribute in meters (modelled as exact rationals).  The
great-circle distance `_haversine_m` is transcendental, so definitions that
need it take the distance function as an explicit parameter. -/

structure GNode where
  nid : ℕ
  x : ℚ
  y : ℚ
deriving DecidableEq

structure GEdge where
  src : ℕ
  dst : ℕ
  key : ℕ
  elen : ℚ
deriving DecidableEq

structure Graph where
  nodes : List GNode
  edges : List GEdge
deriving DecidableEq

/-- Coordinate lookup `G.nodes[n]["x"], G.nodes[n]["y"]` (as an (x, y) pair). -/
def node_xy (G : Graph) (n : ℕ) : ℚ × ℚ :=
  match G.nodes.find? (fun nd => nd.nid = n) with
  | some nd => (nd.x, nd.y)
  | none => (0, 0)

/-! ## Blocked-edge filter: `_remove_blocked_edges` (router.py lines 293-329) -/

/-- Embeds `_remove_blocked_edges`.  `hav` stands for `_haversine_m`;
`blocked_points` is a list of (lat, lng) pairs.  Phase 1 marks nodes within
`radius_m` of a blocked point, phase 2 removes edges incident to a marked node
whose endpoint or midpoint is within `radius_m` of a blocked point.  An empty
block list returns the input graph itself. -/
def remove_blocked_edges (hav : ℚ × ℚ → ℚ × ℚ → ℚ) (G : Graph)
    (blocked_points : List (ℚ × ℚ)) (radius_m : ℚ := 100) : Graph :=
  if blocked_points = [] then G
  else
    let bp_tuples := blocked_points.map (fun bp => (bp.2, bp.1))
    let nearby_nodes := (G.nodes.filter (fun nd =>
      bp_tuples.any (fun bp => hav bp (nd.x, nd.y) < radius_m))).map GNode.nid
    let edge_blocked := fun (e : GEdge) =>
      (nearby_nodes.contains e.src || nearby_nodes.contains e.dst) &&
      (let upt := node_xy G e.src
       let vpt := node_xy G e.dst
       let mpt := ((upt.1 + vpt.1) / 2, (upt.2 + vpt.2) / 2)
       bp_tuples.any (fun bp =>
         hav bp upt < radius_m || hav bp mpt < radius_m || hav bp vpt < radius_m))
    { G with edges := G.edges.filter (fun e => !(edge_blocked e)) }

/-- C9: an empty blocked-points list returns the input graph unchanged (in the
code, the very same object with no copy made), hence in particular a graph with
identical edge count. -/
theorem remove_blocked_edges_empty (hav : ℚ × ℚ → ℚ × ℚ → ℚ) (G : Graph) (r : ℚ) :
    remove_blocked_edges hav G [] r = G ∧
    (remove_blocked_edges hav G [] r).edges.length = G.edges.length := by
  constructor <;> simp [remove_blocked_edges]

/-- Concrete two-node, one-edge graph used for counterexamples. -/
def cex_graph : Graph :=
  { nodes := [⟨0, 0, 0⟩, ⟨1, 1, 0⟩], edges := [⟨0, 1, 0, 5⟩] }

/-- Concrete stand-in for `_haversine_m` in counterexamples: squared euclidean
distance on coordinate degrees.  Like the real haversine it is far larger than
100 at the points used below. -/
def sq_dist (a b : ℚ × ℚ) : ℚ := (a.1 - b.1) ^ 2 + (a.2 - b.2) ^ 2

/-- C8 counterexample: a non-empty blocked-points list whose points are far from
every node removes no edge at all, so the filtered edge set equals the input edge
set and is not a strict subset.  (With the real `_haversine_m`, a blocked point
at latitude/longitude 50 is thousands of kilometers from the nodes of
`cex_graph`, so the code removes no edge there either.) -/
theorem remove_blocked_edges_not_strict :
    ([((50 : ℚ), (50 : ℚ))] ≠ ([] : List (ℚ × ℚ))) ∧
    (remove_blocked_edges sq_dist cex_graph [(50, 50)] 100).edges = cex_graph.edges := by
  constructor
  · simp
  · norm_num [remove_blocked_edges, sq_dist, cex_graph, node_xy]

/-- C8 (amended): for every distance function, graph and non-empty blocked list,
the filtered edge list is a sublist of the input edge list (hence the edge set is
a subset, though not necessarily a strict one), and the node list is unchanged.
The input graph value itself is never modified: the code removes edges from a
fresh copy only. -/
theorem remove_blocked_edges_subset (hav : ℚ × ℚ → ℚ × ℚ → ℚ) (G : Graph)
    (bps : List (ℚ × ℚ)) (r : ℚ) (h : bps ≠ []) :
    (remove_blocked_edges hav G bps r).edges.Sublist G.edges ∧
    (remove_blocked_edges hav G bps r).nodes = G.nodes := by
  rw [remove_blocked_edges, if_neg h]
  exact ⟨List.filter_sublist _, rfl⟩

/-- Closed witness for the amended C8 at a concrete graph and blocked list. -/
theorem remove_blocked_edges_subset_witness :
    (remove_blocked_edges sq_dist cex_graph [(50, 50)] 100).edges.Sublist cex_graph.edges ∧
    (remove_blocked_edges sq_dist cex_graph [(50, 50)] 100).nodes = cex_graph.nodes :=
  remove_blocked_edges_subset sq_dist cex_graph [(50, 50)] 100 (by simp)

/-! ## Route synthesizer timeline: `_build_cum_distance` and `_build_cum_time`
(router.py lines 729-764) -/

/-- Per-edge metadata span produced by `_route_polyline_and_edges`. -/
structure EdgeMeta where
  u : ℕ
  v : ℕ
  name : String
  speed_kph : ℚ
  span_start : ℕ
  span_end : ℕ
  bearing : ℚ
deriving DecidableEq

instance : Inhabited EdgeMeta := ⟨⟨0, 0, "", 0, 0, 0, 0⟩⟩

/-- Running-sum helper for `_build_cum_distance`: emits
`acc + d prev c` for each further coordinate. -/
def cum_dist_aux (d : ℚ × ℚ → ℚ × ℚ → ℚ) : ℚ × ℚ → ℚ → List (ℚ × ℚ) → List ℚ
  | _, _, [] => []
  | prev, acc, c :: rest => (acc + d prev c) :: cum_dist_aux d c (acc + d prev c) rest

/-- Embeds `_build_cum_distance`: `cum[0] = 0`,
`cum[i] = cum[i-1] + hav(coords[i-1], coords[i])`. -/
def build_cum_distance (d : ℚ × ℚ → ℚ × ℚ → ℚ) (coords : List (ℚ × ℚ)) : List ℚ :=
  match coords with
  | [] => []
  | c :: rest => 0 :: cum_dist_aux d c 0 rest

/-- Inner loop of `_build_cum_time`: distributes an edge travel time over the
polyline indices `s+1 .. e` proportionally to distance. -/
def fill_span (cd : List ℚ) (s : ℕ) (t0 seg_dist seg_time : ℚ)
    (ct : List ℚ) (idxs : List ℕ) : List ℚ :=
  idxs.foldl (fun acc i =>
    let dd := cd.getD i 0 - cd.getD s 0
    let frac := if seg_dist ≤ 0 then 0 else dd / seg_dist
    acc.set i (t0 + seg_time * frac)) ct

/-- Final monotonicity pass of `_build_cum_time`: `if a[i] < a[i-1]: a[i] = a[i-1]`. -/
def clamp_from (prev : ℚ) : List ℚ → List ℚ
  | [] => []
  | x :: xs =>
    (if x < prev then prev else x) :: clamp_from (if x < prev then prev else x) xs

def clamp_mono : List ℚ → List ℚ
  | [] => []
  | x :: xs => x :: clamp_from x xs

/-- Embeds `_build_cum_time`: zero-initialised timeline, per-edge proportional
fill, then the explicit clamp to enforce monotonicity. -/
def build_cum_time (coords : List (ℚ × ℚ)) (cum_dist : List ℚ)
    (edges_meta : List EdgeMeta) : List ℚ :=
  if coords = [] then []
  else
    let filled := edges_meta.foldl (fun ct em =>
      let s := em.span_start
      let e := em.span_end
      if e ≤ s then ct
      else
        let seg_dist := max 0 (cum_dist.getD e 0 - cum_dist.getD s 0)
        let speed_mps := max (1 / 10) (em.speed_kph / (36 / 10))
        let seg_time := seg_dist / speed_mps
        let t0 := ct.getD s 0
        fill_span cum_dist s t0 seg_dist seg_time ct (List.range' (s + 1) (e - s)))
      (List.replicate coords.length 0)
    clamp_mono filled

theorem cum_dist_aux_length (d : ℚ × ℚ → ℚ × ℚ → ℚ) :
    ∀ (l : List (ℚ × ℚ)) (prev : ℚ × ℚ) (acc : ℚ),
      (cum_dist_aux d prev acc l).length = l.length := by
  intro l
  induction l with
  | nil => intro prev acc; simp [cum_dist_aux]
  | cons c rest ih => intro prev acc; simp [cum_dist_aux, ih]

theorem cum_dist_aux_chain (d : ℚ × ℚ → ℚ × ℚ → ℚ) (hd : ∀ a b, 0 ≤ d a b) :
    ∀ (l : List (ℚ × ℚ)) (prev : ℚ × ℚ) (acc : ℚ),
      List.Chain (· ≤ ·) acc (cum_dist_aux d prev acc l) := by
  intro l
  induction l with
  | nil => intro prev acc; exact List.Chain.nil
  | cons c rest ih =>
    intro prev acc
    exact List.Chain.cons (by linarith [hd prev c]) (ih c (acc + d prev c))

theorem fill_span_length (cd : List ℚ) (s : ℕ) (t0 sd st : ℚ) :
    ∀ (idxs : List ℕ) (ct : List ℚ),
      (fill_span cd s t0 sd st ct idxs).length = ct.length := by
  intro idxs
  induction idxs with
  | nil => intro ct; simp [fill_span]
  | cons i rest ih =>
    intro ct
    simp only [fill_span, List.foldl_cons] at *
    rw [ih]
    simp

theorem clamp_from_length (prev : ℚ) :
    ∀ l : List ℚ, (clamp_from prev l).length = l.length := by
  intro l
  induction l generalizing prev with
  | nil => simp [clamp_from]
  | cons x xs ih => simp [clamp_from, ih]

theorem clamp_mono_length : ∀ l : List ℚ, (clamp_mono l).length = l.length := by
  intro l
  cases l with
  | nil => rfl
  | cons x xs => simp [clamp_mono, clamp_from_length]

theorem clamp_from_chain (prev : ℚ) :
    ∀ l : List ℚ, List.Chain (· ≤ ·) prev (clamp_from prev l) := by
  intro l
  induction l generalizing prev with
  | nil => exact List.Chain.nil
  | cons x xs ih =>
    rw [clamp_from]
    by_cases h : x < prev
    · simp only [if_pos h]
      exact List.Chain.cons le_rfl (ih prev)
    · simp only [if_neg h]
      exact List.Chain.cons (le_of_not_lt h) (ih x)

/-- A chain starting at the head is exactly the chain-of-adjacent-pairs property
of the cons list. -/
theorem chain_cons_chain' {R : ℚ → ℚ → Prop} {a : ℚ} {l : List ℚ}
    (h : List.Chain R a l) : List.Chain' R (a :: l) := h

theorem clamp_mono_chain (l : List ℚ) : List.Chain' (· ≤ ·) (clamp_mono l) := by
  cases l with
  | nil => simp [clamp_mono]
  | cons x xs =>
    rw [clamp_mono]
    exact chain_cons_chain' (clamp_from_chain x xs)

theorem foldl_preserves_length {β : Type} (f : List ℚ → β → List ℚ)
    (hf : ∀ acc b, (f acc b).length = acc.length) :
    ∀ (l : List β) (init : List ℚ), (l.foldl f init).length = init.length := by
  intro l
  induction l with
  | nil => intro init; simp
  | cons b rest ih =>
    intro init
    simp only [List.foldl_cons]
    rw [ih, hf]

/-- C4: for every distance function that is pointwise nonnegative (as the
great-circle `_haversine_m` is), every polyline and every edge-metadata list,
the cumulative-distance and cumulative-time sequences each have exactly the
length of the coordinate sequence and are non-decreasing. -/
theorem cum_timeline_spec (d : ℚ × ℚ → ℚ × ℚ → ℚ) (hd : ∀ a b, 0 ≤ d a b)
    (coords : List (ℚ × ℚ)) (edges_meta : List EdgeMeta) :
    (build_cum_distance d coords).length = coords.length ∧
    (build_cum_time coords (build_cum_distance d coords) edges_meta).length
      = coords.length ∧
    List.Chain' (· ≤ ·) (build_cum_distance d coords) ∧
    List.Chain' (· ≤ ·) (build_cum_time coords (build_cum_distance d coords) edges_meta) := by
  refine ⟨?_, ?_, ?_, ?_⟩
  · cases coords with
    | nil => rfl
    | cons c rest => simp [build_cum_distance, cum_dist_aux_length]
  · by_cases h : coords = []
    · simp [build_cum_time, h]
    · rw [build_cum_time, if_neg h]
      rw [clamp_mono_length]
      rw [foldl_preserves_length _ ?_ edges_meta]
      · simp
      · intro acc em
        by_cases he : em.span_end ≤ em.span_start
        · simp [he]
        · simp [he, fill_span_length]
  · cases coords with
    | nil => simp [build_cum_distance]
    | cons c rest =>
      rw [build_cum_distance]
      exact chain_cons_chain' (cum_dist_aux_chain d hd rest c 0)
  · by_cases h : coords = []
    · simp [build_cum_time, h]
    · rw [build_cum_time, if_neg h]
      exact clamp_mono_chain _

/-- Closed witness for C4 with the constant distance function 1 on a concrete
two-point polyline and a one-edge metadata list. -/
theorem cum_timeline_spec_witness :
    (build_cum_distance (fun _ _ => 1) [(0, 0), (1, 0)]).length = 2 ∧
    (build_cum_time [(0, 0), (1, 0)]
      (build_cum_distance (fun _ _ => 1) [(0, 0), (1, 0)])
      [⟨0, 1, "A", 50, 0, 1, 0⟩]).length = 2 ∧
    List.Chain' (· ≤ ·) (build_cum_distance (fun _ _ => 1) [(0, 0), (1, 0)]) ∧
    List.Chain' (· ≤ ·) (build_cum_time [(0, 0), (1, 0)]
      (build_cum_distance (fun _ _ => 1) [(0, 0), (1, 0)])
      [⟨0, 1, "A", 50, 0, 1, 0⟩]) :=
  cum_timeline_spec (fun _ _ => 1) (fun _ _ => by norm_num) [(0, 0), (1, 0)]
    [⟨0, 1, "A", 50, 0, 1, 0⟩]

/-! ## Turn-by-turn step synthesis: `_build_steps` (router.py lines 797-865) -/

structure NavStep where
  id : ℕ
  instruction : String
  street : String
  start_distance_m : ℚ
  end_distance_m : ℚ
  maneuver : String
deriving DecidableEq

instance : Inhabited NavStep := ⟨⟨0, "", "", 0, 0, ""⟩⟩

/-- Python `round(x, 2)` modelled as round-half-up to two decimals (Python uses
round-half-even on floats; the two differ only at exact half-cent values, which
none of the concrete inputs below hit). -/
def py_round2 (x : ℚ) : ℚ := ((round (x * 100) : ℤ) : ℚ) / 100

/-- Embeds `_instruction_for`. -/
def instruction_for (m st0 : String) : String :=
  let st := if st0 = "" then "the road" else st0
  if m = "depart" then "Head on " ++ st
  else if m = "continue" then "Continue on " ++ st
  else if m = "slight_right" then "Slight right onto " ++ st
  else if m = "slight_left" then "Slight left onto " ++ st
  else if m = "right" then "Turn right onto " ++ st
  else if m = "left" then "Turn left onto " ++ st
  else if m = "uturn" then "Make a U-turn to stay on " ++ st
  else "Continue on " ++ st

/-- Embeds the `finalize_step` closure of `_build_steps`: build one step from the
edge span `start_e .. end_e` with the given id and maneuver. -/
def mk_step (em : List EdgeMeta) (cd : List ℚ) (sid start_e end_e : ℕ)
    (man : String) : NavStep :=
  let first := em.getD start_e default
  let last := em.getD end_e default
  let s_idx := first.span_start
  let e_idx := last.span_end
  let start_m := if s_idx < cd.length then cd.getD s_idx 0 else 0
  let end_m := if e_idx < cd.length then cd.getD e_idx 0 else start_m
  let street := if first.name = "" then "Unnamed Road" else first.name
  { id := sid
    instruction := instruction_for man street
    street := street
    start_distance_m := py_round2 start_m
    end_distance_m := py_round2 end_m
    maneuver := man }

/-- Step boundary test of `_build_steps`: street name change, or absolute
signed bearing delta at least 35 degrees (the code uses `>= 35.0`). -/
def step_boundary (em : List EdgeMeta) (i : ℕ) : Bool :=
  let prev := em.getD (i - 1) default
  let cur := em.getD i default
  decide (cur.name ≠ prev.name) || decide ((35 : ℚ) ≤ |angle_diff_deg cur.bearing prev.bearing|)

/-- The segmentation loop of `_build_steps` over the index list `1 .. len-1`,
carrying (steps built so far, current step start edge, current step maneuver). -/
def seg_fold (em : List EdgeMeta) (cd : List ℚ) :
    List ℕ → List NavStep × ℕ × String → List NavStep × ℕ × String
  | [], acc => acc
  | i :: rest, (steps, start_e, man) =>
    if step_boundary em i then
      seg_fold em cd rest
        (steps ++ [mk_step em cd steps.length start_e (i - 1) man], i,
          classify_maneuver (angle_diff_deg (em.getD i default).bearing
            (em.getD (i - 1) default).bearing))
    else seg_fold em cd rest (steps, start_e, man)

/-- Segmentation phase of `_build_steps` (before merging). -/
def segment_steps (em : List EdgeMeta) (cd : List ℚ) : List NavStep :=
  if em = [] ∨ cd = [] then []
  else
    let fin := seg_fold em cd (List.range' 1 (em.length - 1)) ([], 0, "depart")
    fin.1 ++ [mk_step em cd fin.1.length fin.2.1 (em.length - 1) fin.2.2]

/-- One iteration of the merge loop of `_build_steps`: a step shorter than 30 m
with the same street as the previous kept step extends that step in place. -/
def merge_fold (merged : List NavStep) (st : NavStep) : List NavStep :=
  match merged.getLast? with
  | none => [st]
  | some prev =>
    if st.street = prev.street ∧ st.end_distance_m - st.start_distance_m < 30 then
      merged.dropLast ++ [{ prev with end_distance_m := st.end_distance_m }]
    else merged ++ [st]

def merge_steps (steps : List NavStep) : List NavStep := steps.foldl merge_fold []

/-- Final id reassignment of `_build_steps`. -/
def reindex_steps (l : List NavStep) : List NavStep :=
  l.enum.map (fun p => { p.2 with id := p.1 })

/-- Embeds `_build_steps`: segmentation, merge of short same-street steps,
re-index. -/
def build_steps (em : List EdgeMeta) (cd : List ℚ) : List NavStep :=
  reindex_steps (merge_steps (segment_steps em cd))

/-- Specification-side segmentation, following the (amended) spec words: the
edge range is cut into groups at exactly the indices where the street name
changes or the absolute bearing delta is at least 35 degrees; the first group
carries maneuver `depart`, each later group the classified turn at its
boundary. -/
def spec_groups (em : List EdgeMeta) : List ℕ → ℕ → String → List (ℕ × ℕ × String)
  | [], start_e, man => [(start_e, em.length - 1, man)]
  | i :: rest, start_e, man =>
    if step_boundary em i then
      (start_e, i - 1, man) :: spec_groups em rest i
        (classify_maneuver (angle_diff_deg (em.getD i default).bearing
          (em.getD (i - 1) default).bearing))
    else spec_groups em rest start_e man

/-- Specification-side step list: one step per group, ids in order. -/
def spec_segment_steps (em : List EdgeMeta) (cd : List ℚ) : List NavStep :=
  if em = [] ∨ cd = [] then []
  else
    ((spec_groups em (List.range' 1 (em.length - 1)) 0 "depart").enum).map
      (fun p => mk_step em cd p.1 p.2.1 p.2.2.1 p.2.2.2)

theorem seg_fold_eq (em : List EdgeMeta) (cd : List ℚ) :
    ∀ (idxs : List ℕ) (steps : List NavStep) (start_e : ℕ) (man : String),
      (seg_fold em cd idxs (steps, start_e, man)).1 ++
        [mk_step em cd (seg_fold em cd idxs (steps, start_e, man)).1.length
          (seg_fold em cd idxs (steps, start_e, man)).2.1 (em.length - 1)
          (seg_fold em cd idxs (steps, start_e, man)).2.2] =
      steps ++ ((spec_groups em idxs start_e man).enumFrom steps.length).map
        (fun p => mk_step em cd p.1 p.2.1 p.2.2.1 p.2.2.2) := by
  intro idxs
  induction idxs with
  | nil =>
    intro steps start_e man
    simp [seg_fold, spec_groups]
  | cons i rest ih =>
    intro steps start_e man
    rw [seg_fold, spec_groups]
    by_cases hb : step_boundary em i
    · simp only [hb, if_true]
      rw [ih]
      rw [List.enumFrom_cons]
      simp [List.length_append]
    · simp only [hb, if_false]
      exact ih steps start_e man

/-- The head group of the spec segmentation carries the initial maneuver. -/
theorem spec_groups_head_man (em : List EdgeMeta) :
    ∀ (idxs : List ℕ) (start_e : ℕ) (man : String),
      ∃ a b, (spec_groups em idxs start_e man).head? = some (a, b, man) := by
  intro idxs
  induction idxs with
  | nil => intro s m; exact ⟨s, em.length - 1, rfl⟩
  | cons i rest ih =>
    intro s m
    rw [spec_groups]
    by_cases hb : step_boundary em i
    · simp only [hb, if_true]
      exact ⟨s, i - 1, rfl⟩
    · simp only [hb, if_false]
      exact ih s m

theorem segment_eq_spec (em : List EdgeMeta) (cd : List ℚ) :
    segment_steps em cd = spec_segment_steps em cd := by
  by_cases h : em = [] ∨ cd = []
  · simp [segment_steps, spec_segment_steps, h]
  · rw [segment_steps, if_neg h, spec_segment_steps, if_neg h]
    have := seg_fold_eq em cd (List.range' 1 (em.length - 1)) [] 0 "depart"
    simpa [List.enum] using this

/-- Merging never empties a non-empty list and preserves the head maneuver. -/
theorem merge_foldl_head_man :
    ∀ (l : List NavStep) (init : List NavStep), init ≠ [] →
      List.foldl merge_fold init l ≠ [] ∧
      (List.foldl merge_fold init l).head?.map NavStep.maneuver
        = init.head?.map NavStep.maneuver := by
  intro l
  induction l with
  | nil => intro init h; exact ⟨h, rfl⟩
  | cons st rest ih =>
    intro init h
    rw [List.foldl_cons]
    obtain ⟨x, xs, rfl⟩ := List.exists_cons_of_ne_nil h
    have step : merge_fold (x :: xs) st ≠ [] ∧
        (merge_fold (x :: xs) st).head?.map NavStep.maneuver = some x.maneuver := by
      rw [merge_fold]
      cases hlast : (x :: xs).getLast? with
      | none => simp at hlast
      | some prev =>
        by_cases hc : st.street = prev.street ∧
            st.end_distance_m - st.start_distance_m < 30
        · simp only [hc, if_true]
          cases xs with
          | nil =>
            have hpx : x = prev := by simpa using hlast
            subst hpx
            simp
          | cons y ys =>
            constructor
            · simp
            · rw [List.dropLast_cons₂]
              simp
        · simp only [hc, if_false]
          constructor
          · simp
          · simp
    obtain ⟨h1, h2⟩ := step
    obtain ⟨h3, h4⟩ := ih (merge_fold (x :: xs) st) h1
    exact ⟨h3, by rw [h4, h2]; simp⟩

theorem reindex_map_id (l : List NavStep) :
    (reindex_steps l).map NavStep.id = List.range l.length ∧
    (reindex_steps l).length = l.length ∧
    (reindex_steps l).head?.map NavStep.maneuver = l.head?.map NavStep.maneuver := by
  refine ⟨?_, by simp [reindex_steps], ?_⟩
  · rw [reindex_steps, List.map_map]
    have : (NavStep.maneuver ∘ fun p : ℕ × NavStep => { p.2 with id := p.1 }) =
        NavStep.maneuver ∘ Prod.snd := rfl
    have hm : (NavStep.id ∘ fun p : ℕ × NavStep => { p.2 with id := p.1 }) = Prod.fst := rfl
    rw [hm, List.enum_map_fst]
  · cases l with
    | nil => rfl
    | cons a t => simp [reindex_steps]

/-- C5 counterexample input: two edges with the same street name and a bearing
delta of exactly 35 degrees; spans of 50 m each so the merge pass does not fire. -/
def cex_em : List EdgeMeta :=
  [⟨0, 1, "A", 50, 0, 1, 0⟩, ⟨1, 2, "A", 50, 1, 2, 35⟩]

def cex_cd : List ℚ := [0, 50, 100]

/-- C5 counterexample: with no street-name change and a signed bearing delta of
exactly 35 degrees (which does not exceed 35), the code still starts a new step
(it tests `abs(delta) >= 35.0`), producing two steps where the claim as stated
requires a single depart step. -/
theorem build_steps_boundary_at_35 :
    angle_diff_deg 35 0 = 35 ∧
    ¬ ((35 : ℚ) > 35) ∧
    (cex_em.getD 1 default).name = (cex_em.getD 0 default).name ∧
    (build_steps cex_em cex_cd).length = 2 := by
  have hdelta : angle_diff_deg 35 0 = 35 := by
    rw [angle_diff_deg, pymod]
    norm_num
  refine ⟨hdelta, by norm_num, by norm_num [cex_em], ?_⟩
  have hb : step_boundary cex_em 1 = true := by
    rw [step_boundary]
    norm_num [cex_em, hdelta]
  have hseg : segment_steps cex_em cex_cd =
      [mk_step cex_em cex_cd 0 0 0 "depart",
       mk_step cex_em cex_cd 1 1 1 (classify_maneuver 35)] := by
    have hne : ¬(cex_em = [] ∨ cex_cd = []) := by simp [cex_em, cex_cd]
    have hrange : List.range' 1 (cex_em.length - 1) = [1] := by
      simp [cex_em]
    rw [segment_steps, if_neg hne, hrange, seg_fold]
    simp only [hb, if_true]
    rw [seg_fold]
    have hlen : cex_em.length = 2 := by simp [cex_em]
    simp [hlen]
    have hb1 : cex_em[1].bearing = 35 := rfl
    have hb0 : cex_em[0].bearing = 0 := rfl
    rw [hb1, hb0, hdelta]
  rw [build_steps, hseg]
  have h30 : ¬ ((mk_step cex_em cex_cd 1 1 1 (classify_maneuver 35)).street
        = (mk_step cex_em cex_cd 0 0 0 "depart").street ∧
      (mk_step cex_em cex_cd 1 1 1 (classify_maneuver 35)).end_distance_m -
        (mk_step cex_em cex_cd 1 1 1 (classify_maneuver 35)).start_distance_m < 30) := by
    intro hc
    have := hc.2
    rw [mk_step] at this
    norm_num [cex_em, cex_cd, py_round2, round_eq] at this
  have hm0 : merge_fold [] (mk_step cex_em cex_cd 0 0 0 "depart")
      = [mk_step cex_em cex_cd 0 0 0 "depart"] := rfl
  have hm1 : merge_fold [mk_step cex_em cex_cd 0 0 0 "depart"]
        (mk_step cex_em cex_cd 1 1 1 (classify_maneuver 35))
      = [mk_step cex_em cex_cd 0 0 0 "depart",
         mk_step cex_em cex_cd 1 1 1 (classify_maneuver 35)] := by
    rw [merge_fold]
    simp only [List.getLast?_singleton]
    rw [if_neg h30]
    rfl
  rw [merge_steps]
  simp only [List.foldl_cons, List.foldl_nil]
  rw [hm0, hm1]
  simp [reindex_steps]

/-- C5 (amended): segmentation starts a new step exactly when the street name
changes or the absolute signed bearing delta is at least 35 degrees (the claim
said strictly more than 35); the first step is a depart; every later step
shorter than 30 m sharing the previous step street is merged into it; ids are
reassigned 0,1,2,... after merging. -/
theorem build_steps_amended (em : List EdgeMeta) (cd : List ℚ)
    (h1 : em ≠ []) (h2 : cd ≠ []) :
    segment_steps em cd = spec_segment_steps em cd ∧
    build_steps em cd = reindex_steps (merge_steps (spec_segment_steps em cd)) ∧
    (build_steps em cd).map NavStep.id = List.range (build_steps em cd).length ∧
    (build_steps em cd).head?.map NavStep.maneuver = some "depart" := by
  have hse := segment_eq_spec em cd
  have hnonempty : segment_steps em cd ≠ [] := by
    rw [segment_steps, if_neg (by simp [h1, h2])]
    simp
  have hhead : (segment_steps em cd).head?.map NavStep.maneuver = some "depart" := by
    rw [hse, spec_segment_steps, if_neg (by simp [h1, h2])]
    obtain ⟨a, b, hg⟩ := spec_groups_head_man em (List.range' 1 (em.length - 1)) 0 "depart"
    cases hgl : spec_groups em (List.range' 1 (em.length - 1)) 0 "depart" with
    | nil => rw [hgl] at hg; simp at hg
    | cons g gs =>
      rw [hgl] at hg
      simp only [List.head?_cons, Option.some_inj] at hg
      subst hg
      simp [List.enum_cons, mk_step]
  refine ⟨hse, by rw [build_steps, hse], ?_, ?_⟩
  · have := (reindex_map_id (merge_steps (segment_steps em cd))).1
    have hlen := (reindex_map_id (merge_steps (segment_steps em cd))).2.1
    rw [build_steps, this, hlen]
  · obtain ⟨x, xs, hx⟩ := List.exists_cons_of_ne_nil hnonempty
    have hmerge : (merge_steps (segment_steps em cd)).head?.map NavStep.maneuver
        = some "depart" := by
      rw [merge_steps, hx, List.foldl_cons]
      have hstart : merge_fold [] x = [x] := by rw [merge_fold]; simp
      rw [hstart]
      have := (merge_foldl_head_man xs [x] (by simp)).2
      rw [this]
      rw [hx] at hhead
      simpa using hhead
    rw [build_steps, (reindex_map_id (merge_steps (segment_steps em cd))).2.2, hmerge]

/-- Closed witness for the amended C5 at the concrete two-edge input. -/
theorem build_steps_amended_witness :
    segment_steps cex_em cex_cd = spec_segment_steps cex_em cex_cd ∧
    build_steps cex_em cex_cd
      = reindex_steps (merge_steps (spec_segment_steps cex_em cex_cd)) ∧
    (build_steps cex_em cex_cd).map NavStep.id
      = List.range (build_steps cex_em cex_cd).length ∧
    (build_steps cex_em cex_cd).head?.map NavStep.maneuver = some "depart" :=
  build_steps_amended cex_em cex_cd (by simp [cex_em]) (by simp [cex_cd])

/-! ## Shortest-path engine (router.py lines 352-491)

Both `_dijkstra_with_exploration` and the reverse Dijkstra of
`_get_msh_shortest_path_tree` collapse parallel edges to the one of minimum
`length` when relaxing, so the embedding works with the collapsed weight
`wmin`.  Edge weights are modelled as exact rationals. -/

/-- All `length` attributes of parallel edges from `u` to `v`. -/
def parallel_lengths (G : Graph) (u v : ℕ) : List ℚ :=
  G.edges.filterMap (fun e => if e.src = u ∧ e.dst = v then some e.elen else none)

/-- Weight of the shortest parallel edge from `u` to `v` (none if there is no
edge), as selected by `min(edge_dict.keys(), key=length)` in the code. -/
def wmin (G : Graph) (u v : ℕ) : Option ℚ := (parallel_lengths G u v).min?

/-- Distinct successors of `u`, as iterated by `G[u].items()`. -/
def succs (G : Graph) (u : ℕ) : List ℕ :=
  (G.edges.filterMap (fun e => if e.src = u then some e.dst else none)).dedup

/-- Adjacency of `u` with collapsed minimum parallel-edge weights. -/
def adjw (G : Graph) (u : ℕ) : List (ℕ × ℚ) :=
  (succs G u).filterMap (fun v => (wmin G u v).map (fun w => (v, w)))

/-- Every node id mentioned by the graph (used only as a termination measure). -/
def node_ids (G : Graph) : Finset ℕ :=
  (G.nodes.map GNode.nid).toFinset ∪ (G.edges.map GEdge.src).toFinset
    ∪ (G.edges.map GEdge.dst).toFinset

/-- The reversed graph `G.reverse()`: every edge swaps direction. -/
def reverse_graph (G : Graph) : Graph :=
  { nodes := G.nodes, edges := G.edges.map (fun e => { e with src := e.dst, dst := e.src }) }

/-- Pop the least `(distance, node)` pair, as `heapq.heappop` does on tuples
(lexicographic comparison).  Returns the popped pair and the remaining heap. -/
def heap_pop : List (ℚ × ℕ) → Option ((ℚ × ℕ) × List (ℚ × ℕ))
  | [] => none
  | p :: rest =>
    match heap_pop rest with
    | none => some (p, [])
    | some (m, r) =>
      if p.1 < m.1 ∨ (p.1 = m.1 ∧ p.2 ≤ m.2) then some (p, rest) else some (m, p :: r)

/-- Dijkstra loop state: tentative distances, predecessors (`some none` marks
the source), visited nodes in visit order (most recent first), and the heap. -/
structure DState where
  dist : ℕ → Option ℚ
  pred : ℕ → Option (Option ℕ)
  visited : List ℕ
  heap : List (ℚ × ℕ)

/-- Pointwise map update. -/
def upd {α : Type} (f : ℕ → Option α) (k : ℕ) (v : α) : ℕ → Option α :=
  fun n => if n = k then some v else f n

/-- One relaxation: skip visited neighbours, otherwise update `dist`/`pred` and
push when the tentative distance improves. -/
def relax_step (u : ℕ) (du : ℚ) (st : DState) (vw : ℕ × ℚ) : DState :=
  if vw.1 ∈ st.visited then st
  else
    let nd := du + vw.2
    match st.dist vw.1 with
    | none =>
      { st with
        dist := upd st.dist vw.1 nd
        pred := upd st.pred vw.1 (some u)
        heap := (nd, vw.1) :: st.heap }
    | some dv =>
      if nd < dv then
        { st with
          dist := upd st.dist vw.1 nd
          pred := upd st.pred vw.1 (some u)
          heap := (nd, vw.1) :: st.heap }
      else st

/-- Relax all outgoing edges of `u` (the `for v, edge_dict in G[u].items()` loop). -/
def relax_all (u : ℕ) (du : ℚ) (G : Graph) (st : DState) : DState :=
  (adjw G u).foldl (relax_step u du) st

theorem relax_step_visited (u : ℕ) (du : ℚ) (st : DState) (vw : ℕ × ℚ) :
    (relax_step u du st vw).visited = st.visited := by
  rw [relax_step]
  split
  · rfl
  · split
    · rfl
    · dsimp only
      split
      · rfl
      · rfl

theorem relax_foldl_visited (u : ℕ) (du : ℚ) :
    ∀ (l : List (ℕ × ℚ)) (st : DState),
      (l.foldl (relax_step u du) st).visited = st.visited := by
  intro l
  induction l with
  | nil => intro st; rfl
  | cons vw rest ih =>
    intro st
    rw [List.foldl_cons, ih, relax_step_visited]

theorem relax_all_visited (u : ℕ) (du : ℚ) (G : Graph) (st : DState) :
    (relax_all u du G st).visited = st.visited :=
  relax_foldl_visited u du (adjw G u) st

theorem adjw_mem_node_ids (G : Graph) (u : ℕ) {vw : ℕ × ℚ}
    (h : vw ∈ adjw G u) : u ∈ node_ids G := by
  rw [adjw] at h
  obtain ⟨v, hv, _⟩ := List.mem_filterMap.mp h
  rw [succs] at hv
  rw [List.mem_dedup] at hv
  obtain ⟨e, he, hev⟩ := List.mem_filterMap.mp hv
  by_cases hs : e.src = u
  · rw [node_ids]
    refine Finset.mem_union_left _ (Finset.mem_union_right _ ?_)
    rw [List.mem_toFinset]
    exact List.mem_map.mpr ⟨e, he, hs⟩
  · simp [hs] at hev

theorem adjw_empty_of_not_node (G : Graph) (u : ℕ) (h : u ∉ node_ids G) :
    adjw G u = [] := by
  cases ha : adjw G u with
  | nil => rfl
  | cons vw rest =>
    exact absurd (adjw_mem_node_ids G u (by rw [ha]; exact List.mem_cons_self vw rest)) h

theorem heap_pop_none_iff (l : List (ℚ × ℕ)) : heap_pop l = none ↔ l = [] := by
  cases l with
  | nil => simp [heap_pop]
  | cons p rest =>
    rw [heap_pop]
    cases h : heap_pop rest with
    | none => simp
    | some mr =>
      obtain ⟨m, r⟩ := mr
      by_cases hc : p.1 < m.1 ∨ (p.1 = m.1 ∧ p.2 ≤ m.2)
      · simp [hc]
      · simp [hc]

theorem heap_pop_perm (l : List (ℚ × ℕ)) :
    ∀ m r, heap_pop l = some (m, r) → l.Perm (m :: r) := by
  induction l with
  | nil => intro m r h; simp [heap_pop] at h
  | cons p rest ih =>
    intro m r h
    cases hrec : heap_pop rest with
    | none =>
      rw [heap_pop, hrec] at h
      rw [heap_pop_none_iff] at hrec
      subst hrec
      simp only [Option.some_inj, Prod.mk.injEq] at h
      rw [← h.1, ← h.2]
    | some mr =>
      obtain ⟨m0, r0⟩ := mr
      rw [heap_pop, hrec] at h
      have hperm := ih m0 r0 hrec
      by_cases hc : p.1 < m0.1 ∨ (p.1 = m0.1 ∧ p.2 ≤ m0.2)
      · simp only [if_pos hc, Option.some_inj, Prod.mk.injEq] at h
        rw [← h.1, ← h.2]
      · simp only [if_neg hc, Option.some_inj, Prod.mk.injEq] at h
        rw [← h.1, ← h.2]
        exact List.Perm.trans (List.Perm.cons p hperm) (List.Perm.swap m0 p r0)

theorem heap_pop_min (l : List (ℚ × ℕ)) :
    ∀ m r, heap_pop l = some (m, r) → ∀ q ∈ l, m.1 ≤ q.1 := by
  induction l with
  | nil => intro m r h; simp [heap_pop] at h
  | cons p rest ih =>
    intro m r h q hq
    cases hrec : heap_pop rest with
    | none =>
      rw [heap_pop, hrec] at h
      rw [heap_pop_none_iff] at hrec
      subst hrec
      simp only [Option.some_inj, Prod.mk.injEq] at h
      simp only [List.mem_singleton] at hq
      rw [← h.1, hq]
    | some mr =>
      obtain ⟨m0, r0⟩ := mr
      rw [heap_pop, hrec] at h
      rcases List.mem_cons.mp hq with hq | hq
      · by_cases hc : p.1 < m0.1 ∨ (p.1 = m0.1 ∧ p.2 ≤ m0.2)
        · simp only [if_pos hc, Option.some_inj, Prod.mk.injEq] at h
          rw [← h.1, hq]
        · simp only [if_neg hc, Option.some_inj, Prod.mk.injEq] at h
          rw [← h.1, hq]
          push_neg at hc
          exact hc.1
      · have hmin := ih m0 r0 hrec q hq
        by_cases hc : p.1 < m0.1 ∨ (p.1 = m0.1 ∧ p.2 ≤ m0.2)
        · simp only [if_pos hc, Option.some_inj, Prod.mk.injEq] at h
          rw [← h.1]
          rcases hc with hc | hc
          · exact le_trans (le_of_lt hc) hmin
          · exact le_trans (le_of_eq hc.1) hmin
        · simp only [if_neg hc, Option.some_inj, Prod.mk.injEq] at h
          rw [← h.1]
          exact hmin

theorem heap_pop_length (l : List (ℚ × ℕ)) {m : ℚ × ℕ} {r : List (ℚ × ℕ)}
    (h : heap_pop l = some (m, r)) : l.length = r.length + 1 := by
  have := (heap_pop_perm l m r h).length_eq
  simpa using this

/-- The Dijkstra loop shared by `_dijkstra_with_exploration` (with a target,
breaking when it is popped) and the reverse tree builder (no target, runs until
the heap is empty). -/
def dloop (G : Graph) (targ : Option ℕ) (st : DState) : DState :=
  match hp : heap_pop st.heap with
  | none => st
  | some ((d, u), rest) =>
    if hv : u ∈ st.visited then
      dloop G targ { st with heap := rest }
    else
      let st' : DState := { st with visited := u :: st.visited, heap := rest }
      if targ = some u then st'
      else dloop G targ (relax_all u d G st')
termination_by ((node_ids G \ st.visited.toFinset).card, st.heap.length)
decreasing_by
  · apply Prod.Lex.right
    rw [heap_pop_length st.heap hp]
    omega
  · rw [relax_all_visited]
    by_cases hn : u ∈ node_ids G
    · apply Prod.Lex.left
      apply Finset.card_lt_card
      constructor
      · intro x hx
        rw [Finset.mem_sdiff] at hx ⊢
        exact ⟨hx.1, fun hc => hx.2
          (by rw [List.toFinset_cons]; exact Finset.mem_insert_of_mem hc)⟩
      · intro hsub
        have hu : u ∈ node_ids G \ st.visited.toFinset :=
          Finset.mem_sdiff.mpr ⟨hn, by rw [List.mem_toFinset]; exact hv⟩
        have h2 := hsub hu
        rw [Finset.mem_sdiff] at h2
        exact h2.2 (by rw [List.toFinset_cons]; exact Finset.mem_insert_self u _)
    · have hadj : adjw G u = [] := adjw_empty_of_not_node G u hn
      have heq : (node_ids G \ (u :: st.visited).toFinset).card
          = (node_ids G \ st.visited.toFinset).card := by
        congr 1
        ext x
        simp only [Finset.mem_sdiff, List.toFinset_cons, Finset.mem_insert,
          List.mem_toFinset]
        constructor
        · rintro ⟨h1, h2⟩
          exact ⟨h1, fun hc => h2 (Or.inr hc)⟩
        · rintro ⟨h1, h2⟩
          refine ⟨h1, fun hc => ?_⟩
          rcases hc with hc | hc
          · subst hc; exact hn h1
          · exact h2 hc
      rw [heq]
      apply Prod.Lex.right
      have : (relax_all u d G { st with visited := u :: st.visited, heap := rest }).heap
          = rest := by
        rw [relax_all, hadj]
        rfl
      rw [this, heap_pop_length st.heap hp]
      omega

/-- Initial Dijkstra state: `dist = {source: 0}`, `pred = {source: None}`,
heap `[(0, source)]`. -/
def dinit (s : ℕ) : DState :=
  { dist := upd (fun _ => none) s 0
    pred := upd (fun _ => none) s none
    visited := []
    heap := [(0, s)] }

/-- The search loop of `_dijkstra_with_exploration` (the exploration trace has
no effect on the returned path and is not modelled). -/
def dijkstra_run (G : Graph) (s t : ℕ) : DState := dloop G (some t) (dinit s)

/-- The reverse Dijkstra of `_get_msh_shortest_path_tree`, rooted at `dest` on
the reversed graph. -/
def build_reverse_tree (G : Graph) (dest : ℕ) : DState :=
  dloop (reverse_graph G) none (dinit dest)

/-- Predecessor walk of `_dijkstra_with_exploration` (`while cur is not None`).
The fuel argument only bounds the walk; the invariants below show that
`visited.length + 1` is always enough. -/
def walk_pred (pred : ℕ → Option (Option ℕ)) : ℕ → ℕ → Option (List ℕ)
  | 0, _ => none
  | fuel + 1, cur =>
    match pred cur with
    | none => none
    | some none => some [cur]
    | some (some nxt) => (walk_pred pred fuel nxt).map (fun p => cur :: p)

/-- Embeds the path part of `_dijkstra_with_exploration`: run Dijkstra with the
target break, then reconstruct backwards from the target and reverse. -/
def dijkstra_with_exploration (G : Graph) (s t : ℕ) : Except String (List ℕ) :=
  let st := dijkstra_run G s t
  match st.pred t with
  | none => Except.error "no path found via dijkstra"
  | some _ =>
    match walk_pred st.pred (st.visited.length + 1) t with
    | none => Except.error "no path found via dijkstra"
    | some p => Except.ok p.reverse

/-- Errors of `_reconstruct_from_msh_cache` (RuntimeError messages in the code;
`fuelOut` is an artefact of the fuel-based embedding and is proved unreachable
in the situations the claims are about). -/
inductive RecErr
  | noPrecomputedPath
  | cycleDetected
  | fuelOut
deriving DecidableEq

/-- The `while cur != msh_node` walk of `_reconstruct_from_msh_cache`.  The
Python `pred.get(cur)` conflates a missing key with a stored `None`, so `pred`
is modelled as a flattened map. -/
def msh_walk (pred : ℕ → Option ℕ) (msh : ℕ) :
    ℕ → ℕ → List ℕ → List ℕ → Except RecErr (List ℕ)
  | 0, cur, _, acc =>
    if cur = msh then Except.ok acc.reverse else Except.error RecErr.fuelOut
  | fuel + 1, cur, seen, acc =>
    if cur = msh then Except.ok acc.reverse
    else
      match pred cur with
      | none => Except.error RecErr.noPrecomputedPath
      | some nxt =>
        if nxt ∈ seen then Except.error RecErr.cycleDetected
        else msh_walk pred msh fuel nxt (nxt :: seen) (nxt :: acc)

/-- Embeds `_reconstruct_from_msh_cache` (router.py lines 416-432). -/
def reconstruct_from_msh_cache (pred : ℕ → Option ℕ) (source_node msh_node : ℕ)
    (fuel : ℕ) : Except RecErr (List ℕ) :=
  msh_walk pred msh_node fuel source_node [source_node] [source_node]

/-- `reconstruct(buildReverseTree(G, D), s)`: build the reverse tree, walk its
predecessor map from `s` to `D`. -/
def reconstruct (G : Graph) (dest s : ℕ) : Except RecErr (List ℕ) :=
  let st := build_reverse_tree G dest
  reconstruct_from_msh_cache (fun n => (st.pred n).join) s dest (st.visited.length + 1)

/-- Total length of a node path: sum of the minimum-length parallel-edge
weights along consecutive node pairs (`none` when some pair has no edge or the
path is empty). -/
def path_cost (G : Graph) : List ℕ → Option ℚ
  | [] => none
  | [_] => some 0
  | u :: v :: rest =>
    match wmin G u v, path_cost G (v :: rest) with
    | some w, some c => some (w + c)
    | _, _ => none

/-! ## Weight and path-cost lemmas -/

theorem wmin_nonneg {G : Graph} (hw : ∀ e ∈ G.edges, 0 ≤ e.elen) {u v : ℕ} {w : ℚ}
    (h : wmin G u v = some w) : 0 ≤ w := by
  rw [wmin] at h
  have hm := List.min?_mem (fun a b : ℚ => min_choice a b) h
  rw [parallel_lengths] at hm
  obtain ⟨e, he, hec⟩ := List.mem_filterMap.mp hm
  by_cases hc : e.src = u ∧ e.dst = v
  · rw [if_pos hc] at hec
    rw [← Option.some_inj.mp hec]
    exact hw e he
  · rw [if_neg hc] at hec
    exact absurd hec (by simp)

theorem wmin_mem_adjw {G : Graph} {u v : ℕ} {w : ℚ} (h : wmin G u v = some w) :
    (v, w) ∈ adjw G u := by
  have hm := List.min?_mem (fun a b : ℚ => min_choice a b) h
  rw [parallel_lengths] at hm
  obtain ⟨e, he, hec⟩ := List.mem_filterMap.mp hm
  by_cases hc : e.src = u ∧ e.dst = v
  · have hv : v ∈ succs G u := by
      rw [succs, List.mem_dedup]
      exact List.mem_filterMap.mpr ⟨e, he, by rw [if_pos hc.1, hc.2]⟩
    rw [adjw]
    exact List.mem_filterMap.mpr ⟨v, hv, by rw [h]; rfl⟩
  · rw [if_neg hc] at hec
    exact absurd hec (by simp)

theorem adjw_mem_wmin {G : Graph} {u : ℕ} {vw : ℕ × ℚ} (h : vw ∈ adjw G u) :
    wmin G u vw.1 = some vw.2 := by
  rw [adjw] at h
  obtain ⟨v0, _, hf⟩ := List.mem_filterMap.mp h
  cases hwm : wmin G u v0 with
  | none => rw [hwm] at hf; exact absurd hf (by simp)
  | some w0 =>
    rw [hwm] at hf
    simp only [Option.map_some', Option.some_inj] at hf
    rw [← hf]
    exact hwm

theorem path_cost_nonneg {G : Graph} (hw : ∀ e ∈ G.edges, 0 ≤ e.elen) :
    ∀ {l : List ℕ} {c : ℚ}, path_cost G l = some c → 0 ≤ c := by
  intro l
  induction l with
  | nil => intro c h; simp [path_cost] at h
  | cons u t ih =>
    intro c h
    cases t with
    | nil =>
      rw [path_cost] at h
      rw [← Option.some_inj.mp h]
    | cons v rest =>
      rw [path_cost] at h
      cases hwm : wmin G u v with
      | none => rw [hwm] at h; exact absurd h (by simp)
      | some w =>
        cases hc : path_cost G (v :: rest) with
        | none => rw [hwm, hc] at h; exact absurd h (by simp)
        | some c2 =>
          rw [hwm, hc] at h
          simp only [Option.some_inj] at h
          rw [← h]
          exact add_nonneg (wmin_nonneg hw hwm) (ih hc)

theorem path_cost_snoc_some {G : Graph} :
    ∀ {l : List ℕ} {y z : ℕ} {c w : ℚ}, l.getLast? = some y →
      path_cost G l = some c → wmin G y z = some w →
      path_cost G (l ++ [z]) = some (c + w) := by
  intro l
  induction l with
  | nil => intro y z c w h; simp at h
  | cons x t ih =>
    intro y z c w hlast hc hwm
    cases t with
    | nil =>
      simp only [List.getLast?_singleton, Option.some_inj] at hlast
      subst hlast
      rw [path_cost] at hc
      simp only [Option.some_inj] at hc
      subst hc
      rw [List.cons_append, List.nil_append, path_cost, hwm, path_cost]
      simp
    | cons x2 t2 =>
      have hlast2 : (x2 :: t2).getLast? = some y := by
        rwa [List.getLast?_cons_cons] at hlast
      rw [path_cost] at hc
      cases hw1 : wmin G x x2 with
      | none => rw [hw1] at hc; exact absurd hc (by simp)
      | some w1 =>
        cases hc2 : path_cost G (x2 :: t2) with
        | none => rw [hw1, hc2] at hc; exact absurd hc (by simp)
        | some c2 =>
          rw [hw1, hc2] at hc
          simp only [Option.some_inj] at hc
          have hih := ih hlast2 hc2 hwm
          rw [List.cons_append, List.cons_append, path_cost]
          rw [List.cons_append] at hih
          rw [hw1, hih, ← hc]
          simp only [Option.some_inj]
          ring

theorem path_cost_snoc_none_edge {G : Graph} :
    ∀ {l : List ℕ} {y z : ℕ}, l.getLast? = some y → wmin G y z = none →
      path_cost G (l ++ [z]) = none := by
  intro l
  induction l with
  | nil => intro y z h; simp at h
  | cons x t ih =>
    intro y z hlast hwm
    cases t with
    | nil =>
      simp only [List.getLast?_singleton, Option.some_inj] at hlast
      subst hlast
      rw [List.cons_append, List.nil_append, path_cost, hwm]
    | cons x2 t2 =>
      have hlast2 : (x2 :: t2).getLast? = some y := by
        rwa [List.getLast?_cons_cons] at hlast
      have hih := ih hlast2 hwm
      rw [List.cons_append] at hih
      rw [List.cons_append, List.cons_append, path_cost, hih]
      cases wmin G x x2 <;> rfl

theorem path_cost_none_snoc {G : Graph} :
    ∀ {l : List ℕ} (z : ℕ), l ≠ [] → path_cost G l = none →
      path_cost G (l ++ [z]) = none := by
  intro l
  induction l with
  | nil => intro z h; exact absurd rfl h
  | cons x t ih =>
    intro z _ hc
    cases t with
    | nil => simp [path_cost] at hc
    | cons x2 t2 =>
      rw [path_cost] at hc
      rw [List.cons_append, List.cons_append, path_cost]
      cases hw1 : wmin G x x2 with
      | none => cases path_cost G (x2 :: (t2 ++ [z])) <;> rfl
      | some w1 =>
        rw [hw1] at hc
        cases hc2 : path_cost G (x2 :: t2) with
        | none =>
          have hih := ih z (by simp) hc2
          rw [List.cons_append] at hih
          rw [hih]
        | some c2 => rw [hc2] at hc; exact absurd hc (by simp)

theorem parallel_lengths_reverse (G : Graph) (a b : ℕ) :
    parallel_lengths (reverse_graph G) a b = parallel_lengths G b a := by
  rw [parallel_lengths, parallel_lengths, reverse_graph]
  simp only [List.filterMap_map]
  congr 1
  funext e
  simp only [Function.comp_apply]
  by_cases h1 : e.dst = a ∧ e.src = b
  · rw [if_pos (by exact ⟨h1.1, h1.2⟩), if_pos ⟨h1.2, h1.1⟩]
  · rw [if_neg (by intro hc; exact h1 ⟨hc.1, hc.2⟩), if_neg (fun hc => h1 ⟨hc.2, hc.1⟩)]

theorem wmin_reverse (G : Graph) (a b : ℕ) :
    wmin (reverse_graph G) a b = wmin G b a := by
  rw [wmin, wmin, parallel_lengths_reverse]

theorem path_cost_reverse (G : Graph) :
    ∀ l : List ℕ, path_cost (reverse_graph G) l.reverse = path_cost G l := by
  intro l
  induction l with
  | nil => rfl
  | cons u t ih =>
    cases t with
    | nil => rfl
    | cons v rest =>
      have hrev : (u :: v :: rest).reverse = (v :: rest).reverse ++ [u] := by
        simp
      rw [hrev, path_cost]
      have hlastrev : (v :: rest).reverse.getLast? = some v := by
        rw [List.getLast?_reverse]
        rfl
      cases hw1 : wmin G u v with
      | none =>
        have hwr : wmin (reverse_graph G) v u = none := by rw [wmin_reverse]; exact hw1
        rw [path_cost_snoc_none_edge hlastrev hwr]
      | some w =>
        have hwr : wmin (reverse_graph G) v u = some w := by rw [wmin_reverse]; exact hw1
        cases hc : path_cost G (v :: rest) with
        | none =>
          have hcr : path_cost (reverse_graph G) (v :: rest).reverse = none := by
            rw [ih]; exact hc
          rw [path_cost_none_snoc u (by simp) hcr]
        | some c =>
          have hcr : path_cost (reverse_graph G) (v :: rest).reverse = some c := by
            rw [ih]; exact hc
          rw [path_cost_snoc_some hlastrev hcr hwr]
          show some (c + w) = some (w + c)
          rw [add_comm]

/-! ## Dijkstra loop invariants -/

/-- `u` was visited strictly later than `v` is a strictly earlier position in
the visit list (which records the most recent visit first). -/
def later_in (l : List ℕ) (v u : ℕ) : Prop :=
  ∃ l1 l2, l = l1 ++ v :: l2 ∧ u ∈ l2

/-- Invariant of the Dijkstra loop state (holds between iterations and at the
final state).  `src` is the root of the search. -/
structure DInv (G : Graph) (src : ℕ) (st : DState) : Prop where
  nodup : st.visited.Nodup
  vis_dom : ∀ v ∈ st.visited, (st.dist v).isSome
  dom_pred : ∀ v : ℕ, (st.dist v).isSome ↔ (st.pred v).isSome
  src_dist : st.dist src = some 0
  src_pred : st.pred src = some none
  dist_nonneg : ∀ v dv, st.dist v = some dv → 0 ≤ dv
  heap_dist : ∀ q ∈ st.heap, ∃ dv, st.dist q.2 = some dv ∧ dv ≤ q.1
  unvisited_heap : ∀ v dv, st.dist v = some dv → v ∉ st.visited → (dv, v) ∈ st.heap
  settled_le : ∀ v ∈ st.visited, ∀ dv, st.dist v = some dv →
    ∀ p c, p.head? = some src → p.getLast? = some v → path_cost G p = some c → dv ≤ c
  sound : ∀ v dv, st.dist v = some dv →
    ∃ p, p.head? = some src ∧ p.getLast? = some v ∧ path_cost G p = some dv
  pred_chain : ∀ v dv, st.dist v = some dv → v ≠ src →
    ∃ u du w, st.pred v = some (some u) ∧ wmin G u v = some w ∧
      st.dist u = some du ∧ dv = du + w ∧ u ∈ st.visited ∧
      (v ∈ st.visited → later_in st.visited v u)

/-- All edges out of the visited node `u` are represented in the heap. -/
def frontier_at (G : Graph) (st : DState) (u : ℕ) : Prop :=
  ∀ du, st.dist u = some du →
    ∀ v w, wmin G u v = some w → v ∉ st.visited →
      ∃ d2, (d2, v) ∈ st.heap ∧ d2 ≤ du + w

def dfrontier (G : Graph) (st : DState) : Prop :=
  ∀ u ∈ st.visited, frontier_at G st u

theorem upd_same {α : Type} (f : ℕ → Option α) (k : ℕ) (v : α) : upd f k v k = some v := by
  simp [upd]

theorem upd_other {α : Type} (f : ℕ → Option α) (k : ℕ) (v : α) (n : ℕ) (h : n ≠ k) :
    upd f k v n = f n := by
  simp [upd, h]

theorem head_append_left {α : Type} {l : List α} {a : α} (l2 : List α)
    (h : l.head? = some a) : (l ++ l2).head? = some a := by
  cases l with
  | nil => simp at h
  | cons x t => simpa using h

theorem dinit_inv (G : Graph) (src : ℕ) : DInv G src (dinit src) := by
  constructor
  · simp [dinit]
  · intro v hv; simp [dinit] at hv
  · intro v
    by_cases h : v = src <;> simp [dinit, upd, h]
  · simp [dinit, upd]
  · simp [dinit, upd]
  · intro v dv h
    simp only [dinit] at h
    by_cases hv : v = src
    · rw [hv, upd_same] at h
      simp only [Option.some_inj] at h
      rw [← h]
    · rw [upd_other _ _ _ _ hv] at h
      exact absurd h (by simp)
  · intro q hq
    simp only [dinit] at hq
    simp only [List.mem_singleton] at hq
    subst hq
    exact ⟨0, by simp [dinit, upd_same], le_refl 0⟩
  · intro v dv h hnv
    simp only [dinit] at h ⊢
    by_cases hv : v = src
    · subst hv
      rw [upd_same] at h
      simp only [Option.some_inj] at h
      rw [← h]
      simp
    · rw [upd_other _ _ _ _ hv] at h
      exact absurd h (by simp)
  · intro v hv; simp [dinit] at hv
  · intro v dv h
    simp only [dinit] at h
    by_cases hv : v = src
    · subst hv
      rw [upd_same] at h
      simp only [Option.some_inj] at h
      exact ⟨[v], rfl, rfl, by rw [path_cost, ← h]⟩
    · rw [upd_other _ _ _ _ hv] at h
      exact absurd h (by simp)
  · intro v dv h hne
    simp only [dinit] at h
    by_cases hv : v = src
    · exact absurd hv hne
    · rw [upd_other _ _ _ _ hv] at h
      exact absurd h (by simp)

theorem dinit_frontier (G : Graph) (src : ℕ) : dfrontier G (dinit src) := by
  intro u hu
  simp [dinit] at hu

theorem last_concat {α : Type} (l : List α) (a : α) : (l ++ [a]).getLast? = some a := by
  rw [List.getLast?_append_cons]
  rfl

/-- Invariant preservation for one improving relaxation of the unvisited
neighbour `v` of the visited node `u`. -/
theorem relax_update_inv (G : Graph) (src u v : ℕ) (du w : ℚ) (st : DState)
    (hw : ∀ e ∈ G.edges, 0 ≤ e.elen)
    (hInv : DInv G src st) (hu_vis : u ∈ st.visited) (hu_dist : st.dist u = some du)
    (hvw : wmin G u v = some w) (hnv : v ∉ st.visited)
    (hless : ∀ dv, st.dist v = some dv → du + w < dv) :
    DInv G src ⟨upd st.dist v (du + w), upd st.pred v (some u), st.visited,
      (du + w, v) :: st.heap⟩ := by
  have hdu0 : 0 ≤ du := hInv.dist_nonneg u du hu_dist
  have hw0 : 0 ≤ w := wmin_nonneg hw hvw
  have hvu : v ≠ u := fun h => hnv (h ▸ hu_vis)
  have hvsrc : v ≠ src := by
    intro h
    have h0 : st.dist v = some 0 := by rw [h]; exact hInv.src_dist
    linarith [hless 0 h0]
  constructor
  · exact hInv.nodup
  · intro x hx
    have hxv : x ≠ v := fun h => hnv (h ▸ hx)
    show (upd st.dist v (du + w) x).isSome
    rw [upd_other _ _ _ _ hxv]
    exact hInv.vis_dom x hx
  · intro x
    show (upd st.dist v (du + w) x).isSome ↔ (upd st.pred v (some u) x).isSome
    by_cases hxv : x = v
    · subst hxv
      rw [upd_same, upd_same]
      simp
    · rw [upd_other _ _ _ _ hxv, upd_other _ _ _ _ hxv]
      exact hInv.dom_pred x
  · show upd st.dist v (du + w) src = some 0
    rw [upd_other _ _ _ _ (Ne.symm hvsrc)]
    exact hInv.src_dist
  · show upd st.pred v (some u) src = some none
    rw [upd_other _ _ _ _ (Ne.symm hvsrc)]
    exact hInv.src_pred
  · intro x dx h
    replace h : upd st.dist v (du + w) x = some dx := h
    by_cases hxv : x = v
    · subst hxv
      rw [upd_same] at h
      simp only [Option.some_inj] at h
      rw [← h]
      linarith
    · rw [upd_other _ _ _ _ hxv] at h
      exact hInv.dist_nonneg x dx h
  · intro q hq
    rcases List.mem_cons.mp hq with hq | hq
    · subst hq
      refine ⟨du + w, ?_, le_refl _⟩
      show upd st.dist v (du + w) v = some (du + w)
      rw [upd_same]
    · obtain ⟨dv0, hdv0, hle0⟩ := hInv.heap_dist q hq
      by_cases hqv : q.2 = v
      · have hlt := hless dv0 (hqv ▸ hdv0)
        refine ⟨du + w, ?_, by linarith⟩
        show upd st.dist v (du + w) q.2 = some (du + w)
        rw [hqv, upd_same]
      · refine ⟨dv0, ?_, hle0⟩
        show upd st.dist v (du + w) q.2 = some dv0
        rw [upd_other _ _ _ _ hqv]
        exact hdv0
  · intro x dx h hxnv
    replace h : upd st.dist v (du + w) x = some dx := h
    by_cases hxv : x = v
    · subst hxv
      rw [upd_same] at h
      simp only [Option.some_inj] at h
      show (dx, x) ∈ (du + w, x) :: st.heap
      rw [← h]
      exact List.mem_cons_self _ _
    · rw [upd_other _ _ _ _ hxv] at h
      exact List.mem_cons_of_mem _ (hInv.unvisited_heap x dx h hxnv)
  · intro x hx dx h p c hh hl hc
    have hxv : x ≠ v := fun he => hnv (he ▸ hx)
    replace h : upd st.dist v (du + w) x = some dx := h
    rw [upd_other _ _ _ _ hxv] at h
    exact hInv.settled_le x hx dx h p c hh hl hc
  · intro x dx h
    replace h : upd st.dist v (du + w) x = some dx := h
    by_cases hxv : x = v
    · subst hxv
      rw [upd_same] at h
      simp only [Option.some_inj] at h
      obtain ⟨pu, hph, hpl, hpc⟩ := hInv.sound u du hu_dist
      refine ⟨pu ++ [x], head_append_left _ hph, last_concat _ _, ?_⟩
      rw [path_cost_snoc_some hpl hpc hvw, h]
    · rw [upd_other _ _ _ _ hxv] at h
      exact hInv.sound x dx h
  · intro x dx h hxsrc
    replace h : upd st.dist v (du + w) x = some dx := h
    by_cases hxv : x = v
    · subst hxv
      rw [upd_same] at h
      simp only [Option.some_inj] at h
      refine ⟨u, du, w, ?_, hvw, ?_, by rw [← h], hu_vis, fun hc => absurd hc hnv⟩
      · show upd st.pred x (some u) x = some (some u)
        rw [upd_same]
      · show upd st.dist x (du + w) u = some du
        rw [upd_other _ _ _ _ (Ne.symm hvu)]
        exact hu_dist
    · rw [upd_other _ _ _ _ hxv] at h
      obtain ⟨u0, du0, w0, hp0, hwm0, hd0, he0, hv0, hl0⟩ := hInv.pred_chain x dx h hxsrc
      have hu0v : u0 ≠ v := fun he => hnv (he ▸ hv0)
      refine ⟨u0, du0, w0, ?_, hwm0, ?_, he0, hv0, hl0⟩
      · show upd st.pred v (some u) x = some (some u0)
        rw [upd_other _ _ _ _ hxv]
        exact hp0
      · show upd st.dist v (du + w) u0 = some du0
        rw [upd_other _ _ _ _ hu0v]
        exact hd0

theorem relax_step_spec (G : Graph) (src u : ℕ) (du : ℚ) (st : DState) (vw : ℕ × ℚ)
    (hw : ∀ e ∈ G.edges, 0 ≤ e.elen)
    (hInv : DInv G src st) (hu_vis : u ∈ st.visited) (hu_dist : st.dist u = some du)
    (hvw : wmin G u vw.1 = some vw.2) :
    DInv G src (relax_step u du st vw) ∧
    (relax_step u du st vw).visited = st.visited ∧
    (∀ q ∈ st.heap, q ∈ (relax_step u du st vw).heap) ∧
    (∀ x ∈ st.visited, (relax_step u du st vw).dist x = st.dist x) ∧
    (vw.1 ∉ st.visited →
      ∃ d2, (d2, vw.1) ∈ (relax_step u du st vw).heap ∧ d2 ≤ du + vw.2) := by
  rw [relax_step]
  by_cases hv1 : vw.1 ∈ st.visited
  · rw [if_pos hv1]
    exact ⟨hInv, rfl, fun q hq => hq, fun x _ => rfl, fun hc => absurd hv1 hc⟩
  · rw [if_neg hv1]
    dsimp only
    cases hd : st.dist vw.1 with
    | none =>
      refine ⟨relax_update_inv G src u vw.1 du vw.2 st hw hInv hu_vis hu_dist hvw hv1
        (fun dv hdv => absurd (hd ▸ hdv) (by simp)), rfl,
        fun q hq => List.mem_cons_of_mem _ hq, ?_, ?_⟩
      · intro x hx
        have hxv : x ≠ vw.1 := fun h => hv1 (h ▸ hx)
        show upd st.dist vw.1 (du + vw.2) x = st.dist x
        rw [upd_other _ _ _ _ hxv]
      · intro _
        exact ⟨du + vw.2, List.mem_cons_self _ _, le_refl _⟩
    | some dv =>
      dsimp only
      by_cases hlt : du + vw.2 < dv
      · rw [if_pos hlt]
        refine ⟨relax_update_inv G src u vw.1 du vw.2 st hw hInv hu_vis hu_dist hvw hv1
          (fun dv0 hdv0 => by
            rw [hd] at hdv0
            simp only [Option.some_inj] at hdv0
            rw [hdv0] at hlt
            exact hlt), rfl,
          fun q hq => List.mem_cons_of_mem _ hq, ?_, ?_⟩
        · intro x hx
          have hxv : x ≠ vw.1 := fun h => hv1 (h ▸ hx)
          show upd st.dist vw.1 (du + vw.2) x = st.dist x
          rw [upd_other _ _ _ _ hxv]
        · intro _
          exact ⟨du + vw.2, List.mem_cons_self _ _, le_refl _⟩
      · rw [if_neg hlt]
        refine ⟨hInv, rfl, fun q hq => hq, fun x _ => rfl, ?_⟩
        intro _
        exact ⟨dv, hInv.unvisited_heap vw.1 dv hd hv1, le_of_not_lt hlt⟩

theorem relax_fold_spec (G : Graph) (src u : ℕ) (du : ℚ)
    (hw : ∀ e ∈ G.edges, 0 ≤ e.elen) :
    ∀ (l : List (ℕ × ℚ)) (st : DState), (∀ vw ∈ l, wmin G u vw.1 = some vw.2) →
      DInv G src st → u ∈ st.visited → st.dist u = some du →
      DInv G src (l.foldl (relax_step u du) st) ∧
      (l.foldl (relax_step u du) st).visited = st.visited ∧
      (∀ q ∈ st.heap, q ∈ (l.foldl (relax_step u du) st).heap) ∧
      (∀ x ∈ st.visited, (l.foldl (relax_step u du) st).dist x = st.dist x) ∧
      (∀ vw ∈ l, vw.1 ∉ st.visited →
        ∃ d2, (d2, vw.1) ∈ (l.foldl (relax_step u du) st).heap ∧ d2 ≤ du + vw.2) := by
  intro l
  induction l with
  | nil =>
    intro st _ hInv hu_vis hu_dist
    exact ⟨hInv, rfl, fun q hq => hq, fun x _ => rfl, fun vw hvw => absurd hvw (by simp)⟩
  | cons vw rest ih =>
    intro st hl hInv hu_vis hu_dist
    have hvw := hl vw (List.mem_cons_self _ _)
    obtain ⟨sInv, svis, sheap, sdist, sfront⟩ :=
      relax_step_spec G src u du st vw hw hInv hu_vis hu_dist hvw
    have hu_vis' : u ∈ (relax_step u du st vw).visited := by rw [svis]; exact hu_vis
    have hu_dist' : (relax_step u du st vw).dist u = some du := by
      rw [sdist u hu_vis]; exact hu_dist
    obtain ⟨fInv, fvis, fheap, fdist, ffront⟩ :=
      ih (relax_step u du st vw) (fun vw' hvw' => hl vw' (List.mem_cons_of_mem _ hvw'))
        sInv hu_vis' hu_dist'
    rw [List.foldl_cons]
    refine ⟨fInv, by rw [fvis, svis], fun q hq => fheap q (sheap q hq), ?_, ?_⟩
    · intro x hx
      have hx' : x ∈ (relax_step u du st vw).visited := by rw [svis]; exact hx
      rw [fdist x hx', sdist x hx]
    · intro vw' hvw' hnv
      rcases List.mem_cons.mp hvw' with hvw' | hvw'
      · subst hvw'
        obtain ⟨d2, hd2, hle2⟩ := sfront hnv
        exact ⟨d2, fheap _ hd2, hle2⟩
      · have hnv' : vw'.1 ∉ (relax_step u du st vw).visited := by rw [svis]; exact hnv
        exact ffront vw' hvw' hnv'

/-- Any path from a visited node `x` to an unvisited node `y` is dominated by
some heap entry: walking the path, the first step out of the visited region is
covered by the frontier invariant. -/
theorem crossing_from (G : Graph) (src : ℕ) (st : DState)
    (hw : ∀ e ∈ G.edges, 0 ≤ e.elen)
    (hInv : DInv G src st) (hfr : dfrontier G st) :
    ∀ (p : List ℕ) (x y : ℕ) (c dx : ℚ), p.head? = some x → p.getLast? = some y →
      path_cost G p = some c → x ∈ st.visited → st.dist x = some dx →
      y ∉ st.visited → ∃ q ∈ st.heap, q.1 ≤ dx + c := by
  intro p
  induction p with
  | nil => intro x y c dx hh; simp at hh
  | cons x0 t ih =>
    intro x y c dx hh hl hc hxv hdx hyv
    simp only [List.head?_cons, Option.some_inj] at hh
    subst hh
    cases t with
    | nil =>
      simp only [List.getLast?_singleton, Option.some_inj] at hl
      subst hl
      exact absurd hxv hyv
    | cons x1 t1 =>
      rw [path_cost] at hc
      cases hw1 : wmin G x0 x1 with
      | none => rw [hw1] at hc; exact absurd hc (by simp)
      | some w1 =>
        cases hc1 : path_cost G (x1 :: t1) with
        | none => rw [hw1, hc1] at hc; exact absurd hc (by simp)
        | some c1 =>
          rw [hw1, hc1] at hc
          simp only [Option.some_inj] at hc
          by_cases hx1 : x1 ∈ st.visited
          · have hx1some := hInv.vis_dom x1 hx1
            obtain ⟨dx1, hdx1⟩ := Option.isSome_iff_exists.mp hx1some
            have hstep : dx1 ≤ dx + w1 := by
              obtain ⟨px, hph, hpl, hpc⟩ := hInv.sound x0 dx hdx
              have hcost := path_cost_snoc_some hpl hpc hw1
              exact hInv.settled_le x1 hx1 dx1 hdx1 (px ++ [x1]) (dx + w1)
                (head_append_left _ hph) (last_concat _ _) hcost
            have hlast1 : (x1 :: t1).getLast? = some y := by
              rwa [List.getLast?_cons_cons] at hl
            obtain ⟨q, hq, hqle⟩ := ih x1 y c1 dx1 rfl hlast1 hc1 hx1 hdx1 hyv
            refine ⟨q, hq, ?_⟩
            have hc1nn : 0 ≤ c1 := path_cost_nonneg hw hc1
            rw [← hc]
            linarith
          · obtain ⟨d2, hd2, hle2⟩ := hfr x0 hxv dx hdx x1 w1 hw1 hx1
            refine ⟨(d2, x1), hd2, ?_⟩
            have hc1nn : 0 ≤ c1 := path_cost_nonneg hw hc1
            rw [← hc]
            simp only []
            linarith

/-- Any path from the source to an unvisited node is dominated by a heap entry. -/
theorem crossing_src (G : Graph) (src : ℕ) (st : DState)
    (hw : ∀ e ∈ G.edges, 0 ≤ e.elen)
    (hInv : DInv G src st) (hfr : dfrontier G st) :
    ∀ (p : List ℕ) (y : ℕ) (c : ℚ), p.head? = some src → p.getLast? = some y →
      path_cost G p = some c → y ∉ st.visited → ∃ q ∈ st.heap, q.1 ≤ c := by
  intro p y c hh hl hc hyv
  by_cases hsv : src ∈ st.visited
  · obtain ⟨q, hq, hqle⟩ := crossing_from G src st hw hInv hfr p src y c 0 hh hl hc hsv
      hInv.src_dist hyv
    exact ⟨q, hq, by linarith⟩
  · refine ⟨(0, src), hInv.unvisited_heap src 0 hInv.src_dist hsv, ?_⟩
    exact path_cost_nonneg hw hc

/-- Skipping an already-visited popped entry preserves everything. -/
theorem skip_step (G : Graph) (src : ℕ) (st : DState) (d : ℚ) (u : ℕ)
    (rest : List (ℚ × ℕ)) (hInv : DInv G src st) (hfr : dfrontier G st)
    (hp : heap_pop st.heap = some ((d, u), rest)) (hu : u ∈ st.visited) :
    DInv G src ⟨st.dist, st.pred, st.visited, rest⟩ ∧
    dfrontier G ⟨st.dist, st.pred, st.visited, rest⟩ := by
  have hperm := heap_pop_perm st.heap _ _ hp
  have hmem_rest : ∀ q : ℚ × ℕ, q ∈ st.heap → q.2 ≠ u → q ∈ rest := by
    intro q hq hqu
    have := hperm.mem_iff.mp hq
    rcases List.mem_cons.mp this with h | h
    · exact absurd (congrArg Prod.snd h) hqu
    · exact h
  constructor
  · constructor
    · exact hInv.nodup
    · exact hInv.vis_dom
    · exact hInv.dom_pred
    · exact hInv.src_dist
    · exact hInv.src_pred
    · exact hInv.dist_nonneg
    · intro q hq
      exact hInv.heap_dist q (hperm.mem_iff.mpr (List.mem_cons_of_mem _ hq))
    · intro v dv hdv hnv
      have hvu : v ≠ u := fun h => hnv (h ▸ hu)
      exact hmem_rest (dv, v) (hInv.unvisited_heap v dv hdv hnv) hvu
    · exact hInv.settled_le
    · exact hInv.sound
    · exact hInv.pred_chain
  · intro x hx du hdu v w hvw hnv
    obtain ⟨d2, hd2, hle2⟩ := hfr x hx du hdu v w hvw hnv
    have hvu : v ≠ u := fun h => hnv (h ▸ hu)
    exact ⟨d2, hmem_rest (d2, v) hd2 hvu, hle2⟩

/-- Visiting a freshly popped node: its tentative distance equals the popped
key and is optimal; the invariant transfers, with the frontier now lacking
only the new node (to be restored by the relaxation pass). -/
theorem visit_step (G : Graph) (src : ℕ) (st : DState) (d : ℚ) (u : ℕ)
    (rest : List (ℚ × ℕ)) (hw : ∀ e ∈ G.edges, 0 ≤ e.elen)
    (hInv : DInv G src st) (hfr : dfrontier G st)
    (hp : heap_pop st.heap = some ((d, u), rest)) (hu : u ∉ st.visited) :
    st.dist u = some d ∧
    DInv G src ⟨st.dist, st.pred, u :: st.visited, rest⟩ ∧
    (∀ x ∈ st.visited, frontier_at G ⟨st.dist, st.pred, u :: st.visited, rest⟩ x) := by
  have hperm := heap_pop_perm st.heap _ _ hp
  have hmin := heap_pop_min st.heap _ _ hp
  have hmem : ((d, u) : ℚ × ℕ) ∈ st.heap := hperm.mem_iff.mpr (List.mem_cons_self _ _)
  obtain ⟨du0, hdu0, hdu0le⟩ := hInv.heap_dist (d, u) hmem
  have hentry : (du0, u) ∈ st.heap := hInv.unvisited_heap u du0 hdu0 hu
  have hd_eq : du0 = d := le_antisymm hdu0le (hmin (du0, u) hentry)
  subst hd_eq
  have hmem_rest : ∀ q : ℚ × ℕ, q ∈ st.heap → q.2 ≠ u → q ∈ rest := by
    intro q hq hqu
    have := hperm.mem_iff.mp hq
    rcases List.mem_cons.mp this with h | h
    · exact absurd (congrArg Prod.snd h) hqu
    · exact h
  refine ⟨hdu0, ?_, ?_⟩
  · constructor
    · exact List.Nodup.cons hu hInv.nodup
    · intro v hv
      rcases List.mem_cons.mp hv with hv | hv
      · subst hv
        rw [hdu0]
        rfl
      · exact hInv.vis_dom v hv
    · exact hInv.dom_pred
    · exact hInv.src_dist
    · exact hInv.src_pred
    · exact hInv.dist_nonneg
    · intro q hq
      exact hInv.heap_dist q (hperm.mem_iff.mpr (List.mem_cons_of_mem _ hq))
    · intro v dv hdv hnv
      have hvu : v ≠ u := fun h => hnv (by rw [h]; exact List.mem_cons_self _ _)
      have hnv' : v ∉ st.visited := fun h => hnv (List.mem_cons_of_mem _ h)
      exact hmem_rest (dv, v) (hInv.unvisited_heap v dv hdv hnv') hvu
    · intro v hv dv hdv p c hh hl hc
      rcases List.mem_cons.mp hv with hv | hv
      · subst hv
        rw [hdu0] at hdv
        simp only [Option.some_inj] at hdv
        subst hdv
        obtain ⟨q, hq, hqle⟩ := crossing_src G src st hw hInv hfr p v c hh hl hc hu
        exact le_trans (hmin q hq) hqle
      · exact hInv.settled_le v hv dv hdv p c hh hl hc
    · exact hInv.sound
    · intro v dv hdv hvsrc
      obtain ⟨u0, du1, w0, hp0, hwm0, hd0, he0, hv0, hl0⟩ := hInv.pred_chain v dv hdv hvsrc
      refine ⟨u0, du1, w0, hp0, hwm0, hd0, he0, List.mem_cons_of_mem _ hv0, ?_⟩
      intro hvmem
      rcases List.mem_cons.mp hvmem with hveq | hvmem
      · subst hveq
        exact ⟨[], st.visited, rfl, hv0⟩
      · obtain ⟨l1, l2, hsplit, hu0l2⟩ := hl0 hvmem
        exact ⟨u :: l1, l2, by rw [hsplit]; rfl, hu0l2⟩
  · intro x hx du hdu v w hvw hnv
    have hnv' : v ∉ st.visited := fun h => hnv (List.mem_cons_of_mem _ h)
    have hvu : v ≠ u := fun h => hnv (by rw [h]; exact List.mem_cons_self _ _)
    obtain ⟨d2, hd2, hle2⟩ := hfr x hx du hdu v w hvw hnv'
    exact ⟨d2, hmem_rest (d2, v) hd2 hvu, hle2⟩

/-- Relaxing all edges of the just-visited node restores the full frontier
invariant. -/
theorem relax_all_spec (G : Graph) (src u : ℕ) (d : ℚ) (st : DState)
    (hw : ∀ e ∈ G.edges, 0 ≤ e.elen)
    (hInv : DInv G src st) (hfr : ∀ x ∈ st.visited, x ≠ u → frontier_at G st x)
    (hu_vis : u ∈ st.visited) (hu_dist : st.dist u = some d) :
    DInv G src (relax_all u d G st) ∧ dfrontier G (relax_all u d G st) := by
  obtain ⟨fInv, fvis, fheap, fdist, ffront⟩ :=
    relax_fold_spec G src u d hw (adjw G u) st (fun vw hvw => adjw_mem_wmin hvw)
      hInv hu_vis hu_dist
  refine ⟨fInv, ?_⟩
  intro x hx du' hdu' v w hvw hnv
  rw [relax_all] at *
  rw [fvis] at hx
  have hnv' : v ∉ st.visited := by rw [fvis] at hnv; exact hnv
  by_cases hxu : x = u
  · subst hxu
    have hdeq : (List.foldl (relax_step x d) st (adjw G x)).dist x = st.dist x :=
      fdist x hx
    rw [hdeq, hu_dist] at hdu'
    simp only [Option.some_inj] at hdu'
    subst hdu'
    exact ffront (v, w) (wmin_mem_adjw hvw) hnv'
  · obtain ⟨d2, hd2, hle2⟩ := hfr x hx hxu du'
      (by rw [← fdist x hx]; exact hdu') v w hvw hnv'
    exact ⟨d2, fheap _ hd2, hle2⟩

theorem dec_relax (G : Graph) (st : DState) (d : ℚ) (u : ℕ) (rest : List (ℚ × ℕ))
    (hp : heap_pop st.heap = some ((d, u), rest)) (hv : u ∉ st.visited) :
    Prod.Lex (· < ·) (· < ·)
      ((node_ids G \ (relax_all u d G
          ⟨st.dist, st.pred, u :: st.visited, rest⟩).visited.toFinset).card,
        (relax_all u d G ⟨st.dist, st.pred, u :: st.visited, rest⟩).heap.length)
      ((node_ids G \ st.visited.toFinset).card, st.heap.length) := by
  rw [relax_all_visited]
  dsimp only
  by_cases hn : u ∈ node_ids G
  · apply Prod.Lex.left
    apply Finset.card_lt_card
    constructor
    · intro x hx
      rw [Finset.mem_sdiff] at hx ⊢
      exact ⟨hx.1, fun hc => hx.2
        (by rw [List.toFinset_cons]; exact Finset.mem_insert_of_mem hc)⟩
    · intro hsub
      have hu : u ∈ node_ids G \ st.visited.toFinset :=
        Finset.mem_sdiff.mpr ⟨hn, by rw [List.mem_toFinset]; exact hv⟩
      have h2 := hsub hu
      rw [Finset.mem_sdiff] at h2
      exact h2.2 (by rw [List.toFinset_cons]; exact Finset.mem_insert_self u _)
  · have hadj : adjw G u = [] := adjw_empty_of_not_node G u hn
    have heq : (node_ids G \ (u :: st.visited).toFinset).card
        = (node_ids G \ st.visited.toFinset).card := by
      congr 1
      ext x
      simp only [Finset.mem_sdiff, List.toFinset_cons, Finset.mem_insert,
        List.mem_toFinset]
      constructor
      · rintro ⟨h1, h2⟩
        exact ⟨h1, fun hc => h2 (Or.inr hc)⟩
      · rintro ⟨h1, h2⟩
        refine ⟨h1, fun hc => ?_⟩
        rcases hc with hc | hc
        · subst hc; exact hn h1
        · exact h2 hc
    rw [heq]
    apply Prod.Lex.right
    have hre : (relax_all u d G
        (⟨st.dist, st.pred, u :: st.visited, rest⟩ : DState)).heap = rest := by
      rw [relax_all, hadj]
      rfl
    rw [hre, heap_pop_length st.heap hp]
    omega

theorem dec_skip (G : Graph) (st : DState) (d : ℚ) (u : ℕ) (rest : List (ℚ × ℕ))
    (hp : heap_pop st.heap = some ((d, u), rest)) :
    Prod.Lex (· < ·) (· < ·)
      ((node_ids G \ (⟨st.dist, st.pred, st.visited, rest⟩ : DState).visited.toFinset).card,
        (⟨st.dist, st.pred, st.visited, rest⟩ : DState).heap.length)
      ((node_ids G \ st.visited.toFinset).card, st.heap.length) := by
  dsimp only
  apply Prod.Lex.right
  rw [heap_pop_length st.heap hp]
  omega

/-- Main loop invariant theorem: from an invariant state, the loop ends in an
invariant state, and either the heap is exhausted (with the frontier intact) or
the break on the target fired with the target visited. -/
theorem dloop_inv (G : Graph) (src : ℕ) (hw : ∀ e ∈ G.edges, 0 ≤ e.elen)
    (targ : Option ℕ) (st : DState) (hInv : DInv G src st) (hfr : dfrontier G st) :
    DInv G src (dloop G targ st) ∧
    (((dloop G targ st).heap = [] ∧ dfrontier G (dloop G targ st)) ∨
      (∃ t, targ = some t ∧ t ∈ (dloop G targ st).visited)) := by
  rw [dloop.eq_def]
  split
  · exact ⟨hInv, Or.inl ⟨by rwa [heap_pop_none_iff] at *, hfr⟩⟩
  · next d u rest hp =>
    split
    · next hv =>
      obtain ⟨sInv, sfr⟩ := skip_step G src st d u rest hInv hfr hp hv
      exact dloop_inv G src hw targ ⟨st.dist, st.pred, st.visited, rest⟩ sInv sfr
    · next hv =>
      obtain ⟨hdist_u, vInv, vfr⟩ := visit_step G src st d u rest hw hInv hfr hp hv
      split
      · next ht =>
        rcases Option.eq_some_iff_get_eq.mp ht with ⟨_, _⟩
        refine ⟨vInv, Or.inr ⟨u, ht, List.mem_cons_self _ _⟩⟩
      · next ht =>
        have hfr' : ∀ x ∈ (⟨st.dist, st.pred, u :: st.visited, rest⟩ : DState).visited,
            x ≠ u → frontier_at G ⟨st.dist, st.pred, u :: st.visited, rest⟩ x := by
          intro x hx hxu
          rcases List.mem_cons.mp hx with hx | hx
          · exact absurd hx hxu
          · exact vfr x hx
        obtain ⟨rInv, rfr⟩ := relax_all_spec G src u d
          ⟨st.dist, st.pred, u :: st.visited, rest⟩ hw vInv hfr'
          (List.mem_cons_self _ _) hdist_u
        exact dloop_inv G src hw targ
          (relax_all u d G ⟨st.dist, st.pred, u :: st.visited, rest⟩) rInv rfr
termination_by ((node_ids G \ st.visited.toFinset).card, st.heap.length)
decreasing_by
  · exact dec_relax G st _ _ _ ‹_› ‹_›
  · exact dec_skip G st _ _ _ ‹_›

/-- With the heap exhausted, every node connected to the source by a path has
been visited. -/
theorem reachable_visited (G : Graph) (src : ℕ) (st : DState)
    (hw : ∀ e ∈ G.edges, 0 ≤ e.elen)
    (hInv : DInv G src st) (hfr : dfrontier G st) (hempty : st.heap = []) :
    ∀ (p : List ℕ) (y : ℕ) (c : ℚ), p.head? = some src → p.getLast? = some y →
      path_cost G p = some c → y ∈ st.visited := by
  intro p y c hh hl hc
  by_contra hny
  obtain ⟨q, hq, _⟩ := crossing_src G src st hw hInv hfr p y c hh hl hc hny
  rw [hempty] at hq
  simp at hq

theorem nodup_split_unique :
    ∀ {l1 l2 m1 m2 : List ℕ} {v : ℕ}, (l1 ++ v :: l2).Nodup →
      l1 ++ v :: l2 = m1 ++ v :: m2 → l1 = m1 ∧ l2 = m2 := by
  intro l1
  induction l1 with
  | nil =>
    intro l2 m1 m2 v hnd he
    cases m1 with
    | nil => simpa using he
    | cons a m1' =>
      simp only [List.nil_append, List.cons_append, List.cons.injEq] at he
      exfalso
      have hv : v ∈ l2 := by rw [he.2]; exact List.mem_append_right _ (List.mem_cons_self _ _)
      simp only [List.nil_append, List.nodup_cons] at hnd
      exact hnd.1 hv
  | cons b l1' ih =>
    intro l2 m1 m2 v hnd he
    cases m1 with
    | nil =>
      simp only [List.cons_append, List.nil_append, List.cons.injEq] at he
      exfalso
      have hv : v ∈ l1' ++ v :: l2 := List.mem_append_right _ (List.mem_cons_self _ _)
      rw [List.cons_append, List.nodup_cons] at hnd
      rw [he.1] at hnd
      exact hnd.1 hv
    | cons c m1' =>
      simp only [List.cons_append, List.cons.injEq] at he
      rw [List.cons_append, List.nodup_cons] at hnd
      obtain ⟨h1, h2⟩ := ih hnd.2 he.2
      exact ⟨by rw [he.1, h1], h2⟩

theorem later_in_irrefl {vis : List ℕ} (hnd : vis.Nodup) {v : ℕ}
    (h : later_in vis v v) : False := by
  obtain ⟨l1, l2, hsp, hv⟩ := h
  rw [hsp] at hnd
  have := List.Nodup.of_append_right hnd
  rw [List.nodup_cons] at this
  exact this.1 hv

theorem later_in_trans {vis : List ℕ} (hnd : vis.Nodup) {v u x : ℕ}
    (h1 : later_in vis v u) (h2 : later_in vis u x) : later_in vis v x := by
  obtain ⟨l1, l2, hsp, hu⟩ := h1
  obtain ⟨m1, m2, hsp2, hx⟩ := h2
  obtain ⟨a, b, hab⟩ := List.append_of_mem hu
  have hre : vis = (l1 ++ v :: a) ++ u :: b := by
    rw [hsp, hab]
    simp
  have hnd2 : (l1 ++ v :: a) ++ u :: b = m1 ++ u :: m2 := by rw [← hre, hsp2]
  have huni := nodup_split_unique (by rw [← hre]; exact hnd) hnd2
  refine ⟨l1, l2, hsp, ?_⟩
  rw [hab]
  apply List.mem_append_right
  apply List.mem_cons_of_mem
  rw [huni.2]
  exact hx

/-- Extract the predecessor chain from a visited node back to the source:
it follows `pred`, has strictly-earlier-visited elements, no duplicates, and
its reversal is a path of cost exactly the tentative distance. -/
theorem chain_extract (G : Graph) (src : ℕ) (st : DState) (hInv : DInv G src st) :
    ∀ (n : ℕ) (v : ℕ) (dv : ℚ), st.dist v = some dv →
      (∃ l1 l2, st.visited = l1 ++ v :: l2 ∧ l2.length ≤ n) →
      ∃ chain : List ℕ, chain.head? = some v ∧ chain.getLast? = some src ∧
        chain.Nodup ∧ chain.length ≤ n + 1 ∧
        List.Chain' (fun a b => st.pred a = some (some b)) chain ∧
        path_cost G chain.reverse = some dv ∧
        (∀ x ∈ chain, x = v ∨ later_in st.visited v x) := by
  intro n
  induction n using Nat.strong_induction_on with
  | _ n ih =>
    intro v dv hdv hsplit
    obtain ⟨l1, l2, hsp, hlen⟩ := hsplit
    by_cases hvsrc : v = src
    · subst hvsrc
      have h0 : dv = 0 := by
        have hsd := hInv.src_dist
        rw [hdv] at hsd
        simpa using hsd
      refine ⟨[v], rfl, rfl, by simp, by simp, by simp, ?_, ?_⟩
      · rw [List.reverse_singleton, path_cost, h0]
      · intro x hx
        simp only [List.mem_singleton] at hx
        exact Or.inl hx
    · obtain ⟨u, du, w, hpred, hwm, hdu, heq, hu_vis, hlater⟩ :=
        hInv.pred_chain v dv hdv hvsrc
      have hv_vis : v ∈ st.visited := by
        rw [hsp]; exact List.mem_append_right _ (List.mem_cons_self _ _)
      have hvu_later : later_in st.visited v u := hlater hv_vis
      obtain ⟨l1', l2', hsp', hu'⟩ := hlater hv_vis
      have hee : l1 ++ v :: l2 = l1' ++ v :: l2' := by rw [← hsp]; exact hsp'
      have huni := nodup_split_unique (by rw [← hsp]; exact hInv.nodup) hee
      have hu_l2 : u ∈ l2 := by rw [huni.2]; exact hu'
      obtain ⟨a, b, hab⟩ := List.append_of_mem hu_l2
      have hblen : b.length < n := by
        have : l2.length = a.length + 1 + b.length := by
          rw [hab]
          simp
          omega
        omega
      have hsp_u : st.visited = (l1 ++ v :: a) ++ u :: b := by
        rw [hsp, hab]
        simp
      obtain ⟨chain_u, hch, hcl, hcnd, hclen, hcc, hcost, hcmem⟩ :=
        ih b.length hblen u du hdu ⟨l1 ++ v :: a, b, hsp_u, le_refl _⟩
      have hchain_ne : chain_u ≠ [] := fun hnil => by
        rw [hnil] at hch
        exact absurd hch (by simp)
      obtain ⟨u0, rest, hcu⟩ := List.exists_cons_of_ne_nil hchain_ne
      have hu0 : u0 = u := by
        rw [hcu] at hch
        simpa using hch
      subst hu0
      subst hcu
      have hlater_of_mem : ∀ x ∈ u0 :: rest, later_in st.visited v x := by
        intro x hx
        rcases hcmem x hx with hx' | hx'
        · rw [hx']
          exact hvu_later
        · exact later_in_trans hInv.nodup hvu_later hx'
      have hvnot : v ∉ u0 :: rest := by
        intro hv
        exact later_in_irrefl hInv.nodup (hlater_of_mem v hv)
      refine ⟨v :: u0 :: rest, rfl, ?_, ?_, ?_, ?_, ?_, ?_⟩
      · rw [List.getLast?_cons_cons]
        exact hcl
      · exact List.Nodup.cons hvnot hcnd
      · simp only [List.length_cons] at hclen ⊢
        omega
      · rw [List.chain'_cons]
        exact ⟨hpred, hcc⟩
      · have hrev : (v :: u0 :: rest).reverse = (u0 :: rest).reverse ++ [v] := by
          simp
        rw [hrev]
        have hlastrev : (u0 :: rest).reverse.getLast? = some u0 := by
          rw [List.getLast?_reverse]
          rfl
        rw [path_cost_snoc_some hlastrev hcost hwm, heq]
      · intro x hx
        rcases List.mem_cons.mp hx with hx | hx
        · exact Or.inl hx
        · exact Or.inr (hlater_of_mem x hx)

/-- The forward predecessor walk succeeds on a pred-chain ending at the source. -/
theorem walk_pred_on_chain (pred : ℕ → Option (Option ℕ)) (src : ℕ)
    (hsrc : pred src = some none) :
    ∀ (chain : List ℕ) (v fuel : ℕ), chain.head? = some v →
      chain.getLast? = some src →
      List.Chain' (fun a b => pred a = some (some b)) chain →
      chain.length ≤ fuel →
      walk_pred pred fuel v = some chain := by
  intro chain
  induction chain with
  | nil => intro v fuel hh; simp at hh
  | cons x t ih =>
    intro v fuel hh hl hcc hlen
    simp only [List.head?_cons, Option.some_inj] at hh
    subst hh
    obtain ⟨f, rfl⟩ : ∃ f, fuel = f + 1 := by
      cases fuel with
      | zero => simp at hlen
      | succ f => exact ⟨f, rfl⟩
    cases t with
    | nil =>
      simp only [List.getLast?_singleton, Option.some_inj] at hl
      subst hl
      rw [walk_pred, hsrc]
    | cons y t2 =>
      rw [List.chain'_cons] at hcc
      rw [walk_pred, hcc.1]
      dsimp only
      have hl2 : (y :: t2).getLast? = some src := by
        rwa [List.getLast?_cons_cons] at hl
      rw [ih y f rfl hl2 hcc.2 (by simpa using Nat.le_of_succ_le_succ hlen)]
      rfl

/-- The MSH cache walk succeeds on a duplicate-free pred-chain ending at the
tree root, accumulating exactly the chain. -/
theorem msh_walk_on_chain (pred : ℕ → Option ℕ) (msh : ℕ) :
    ∀ (chain : List ℕ) (v fuel : ℕ) (seen acc : List ℕ), chain.head? = some v →
      chain.getLast? = some msh →
      List.Chain' (fun a b => pred a = some b) chain →
      chain.Nodup →
      (∀ x ∈ chain.tail, x ∉ seen) →
      chain.length ≤ fuel + 1 →
      msh_walk pred msh fuel v seen acc = Except.ok (acc.reverse ++ chain.tail) := by
  intro chain
  induction chain with
  | nil => intro v fuel seen acc hh; simp at hh
  | cons x t ih =>
    intro v fuel seen acc hh hl hcc hnd hseen hlen
    simp only [List.head?_cons, Option.some_inj] at hh
    subst hh
    cases t with
    | nil =>
      simp only [List.getLast?_singleton, Option.some_inj] at hl
      subst hl
      cases fuel with
      | zero => rw [msh_walk, if_pos rfl]; simp
      | succ f => rw [msh_walk, if_pos rfl]; simp
    | cons y t2 =>
      have hvmsh : x ≠ msh := by
        intro he
        have hmsh_mem : msh ∈ y :: t2 := by
          have := List.mem_of_mem_getLast? (by rw [List.getLast?_cons_cons] at hl; exact hl)
          exact this
        rw [List.nodup_cons] at hnd
        rw [he] at hnd
        exact hnd.1 hmsh_mem
      obtain ⟨f, rfl⟩ : ∃ f, fuel = f + 1 := by
        cases fuel with
        | zero => simp at hlen
        | succ f => exact ⟨f, rfl⟩
      rw [List.chain'_cons] at hcc
      rw [msh_walk, if_neg hvmsh, hcc.1]
      dsimp only
      have hynotseen : y ∉ seen := hseen y (List.mem_cons_self _ _)
      rw [if_neg hynotseen]
      have hl2 : (y :: t2).getLast? = some msh := by
        rwa [List.getLast?_cons_cons] at hl
      rw [List.nodup_cons] at hnd
      have hrec := ih y f (y :: seen) (y :: acc) rfl hl2 hcc.2 hnd.2 ?_ ?_
      · rw [hrec]
        simp
      · intro z hz
        intro hzin
        rcases List.mem_cons.mp hzin with hz1 | hz1
        · rw [List.nodup_cons] at hnd
          exact absurd (hz1 ▸ hz) (by
            have := hnd.2.1
            exact this)
        · exact hseen z (List.mem_cons_of_mem _ (by
            cases hz3 : (y :: t2).tail with
            | nil => rw [hz3] at hz; simp at hz
            | cons a b =>
              rw [hz3] at hz
              rw [show (y :: t2).tail = t2 from rfl] at hz3
              rw [hz3]
              exact hz)) hz1
      · simpa using Nat.le_of_succ_le_succ hlen

/-- C1: for every graph with nonnegative edge lengths, every destination `D`
and every node `s` connected to `D` (equivalently, reachable from `D` in the
reversed graph), reconstructing the path of `s` from the precomputed reverse
shortest-path tree succeeds and yields a path whose total length (sum of
minimum-length parallel-edge weights along consecutive node pairs) equals the
total length of the path returned by the built-in Dijkstra
`_dijkstra_with_exploration` for the same source and destination. -/
theorem tree_reconstruct_matches_dijkstra (G : Graph) (D s : ℕ)
    (hw : ∀ e ∈ G.edges, 0 ≤ e.elen)
    (hreach : ∃ p : List ℕ, p.head? = some s ∧ p.getLast? = some D ∧
      (path_cost G p).isSome) :
    ∃ (p q : List ℕ) (L : ℚ),
      reconstruct G D s = Except.ok p ∧
      dijkstra_with_exploration G s D = Except.ok q ∧
      path_cost G p = some L ∧ path_cost G q = some L := by
  obtain ⟨p0, hp0h, hp0l, hp0c⟩ := hreach
  obtain ⟨c0, hc0⟩ := Option.isSome_iff_exists.mp hp0c
  have hwR : ∀ e ∈ (reverse_graph G).edges, 0 ≤ e.elen := by
    intro e he
    rw [reverse_graph] at he
    simp only [List.mem_map] at he
    obtain ⟨e0, he0, rfl⟩ := he
    exact hw e0 he0
  -- forward run
  obtain ⟨fInv, fdisj⟩ :=
    dloop_inv G s hw (some D) (dinit s) (dinit_inv G s) (dinit_frontier G s)
  have hDvis : D ∈ (dloop G (some D) (dinit s)).visited := by
    rcases fdisj with ⟨hempty, hfr⟩ | ⟨t, ht, hmem⟩
    · exact reachable_visited G s _ hw fInv hfr hempty p0 D c0 hp0h hp0l hc0
    · simp only [Option.some_inj] at ht
      rw [← ht] at hmem
      exact hmem
  obtain ⟨dD, hdD⟩ := Option.isSome_iff_exists.mp (fInv.vis_dom D hDvis)
  obtain ⟨l1, l2, hsplitD⟩ := List.append_of_mem hDvis
  have hl2len : l2.length ≤ (dloop G (some D) (dinit s)).visited.length := by
    rw [hsplitD]
    simp only [List.length_append, List.length_cons]
    omega
  obtain ⟨chf, hfh, hfl, hfnd, hflen, hfcc, hfcost, hfmem⟩ :=
    chain_extract G s _ fInv (dloop G (some D) (dinit s)).visited.length D dD hdD
      ⟨l1, l2, hsplitD, hl2len⟩
  have hwalk := walk_pred_on_chain (dloop G (some D) (dinit s)).pred s fInv.src_pred
    chf D ((dloop G (some D) (dinit s)).visited.length + 1) hfh hfl hfcc (by omega)
  have hpredD : ((dloop G (some D) (dinit s)).pred D).isSome :=
    (fInv.dom_pred D).mp (by rw [hdD]; rfl)
  obtain ⟨pd, hpd⟩ := Option.isSome_iff_exists.mp hpredD
  have hdwe : dijkstra_with_exploration G s D = Except.ok chf.reverse := by
    rw [dijkstra_with_exploration]
    simp only [dijkstra_run]
    rw [hpd]
    dsimp only
    rw [hwalk]
  -- reverse run
  obtain ⟨rInv, rdisj⟩ := dloop_inv (reverse_graph G) D hwR none (dinit D)
    (dinit_inv _ D) (dinit_frontier _ D)
  obtain ⟨hrheap, hrfr⟩ : (dloop (reverse_graph G) none (dinit D)).heap = [] ∧
      dfrontier (reverse_graph G) (dloop (reverse_graph G) none (dinit D)) := by
    rcases rdisj with h | ⟨t, ht, _⟩
    · exact h
    · exact absurd ht (by simp)
  have hp0r_head : p0.reverse.head? = some D := by rw [List.head?_reverse]; exact hp0l
  have hp0r_last : p0.reverse.getLast? = some s := by rw [List.getLast?_reverse]; exact hp0h
  have hp0r_cost : path_cost (reverse_graph G) p0.reverse = some c0 := by
    rw [path_cost_reverse]; exact hc0
  have hsvis : s ∈ (dloop (reverse_graph G) none (dinit D)).visited :=
    reachable_visited _ D _ hwR rInv hrfr hrheap p0.reverse s c0
      hp0r_head hp0r_last hp0r_cost
  obtain ⟨ds, hds⟩ := Option.isSome_iff_exists.mp (rInv.vis_dom s hsvis)
  obtain ⟨m1, m2, hsplits⟩ := List.append_of_mem hsvis
  have hm2len : m2.length ≤ (dloop (reverse_graph G) none (dinit D)).visited.length := by
    rw [hsplits]
    simp only [List.length_append, List.length_cons]
    omega
  obtain ⟨chr, hrh, hrl, hrnd, hrlen, hrcc, hrcost, _⟩ :=
    chain_extract (reverse_graph G) D _ rInv
      (dloop (reverse_graph G) none (dinit D)).visited.length s ds hds
      ⟨m1, m2, hsplits, hm2len⟩
  -- the cache reconstruction succeeds and returns the chain
  have hchr_ne : chr ≠ [] := fun hnil => by
    rw [hnil] at hrh
    exact absurd hrh (by simp)
  obtain ⟨s0, chr_t, hchr⟩ := List.exists_cons_of_ne_nil hchr_ne
  have hs0 : s0 = s := by rw [hchr] at hrh; simpa using hrh
  rw [hs0] at hchr
  have hflat : List.Chain' (fun a b =>
      ((dloop (reverse_graph G) none (dinit D)).pred a).join = some b) chr := by
    apply List.Chain'.imp _ hrcc
    intro a b h
    rw [h]
    rfl
  have hsnotin : s ∉ chr_t := by
    rw [hchr] at hrnd
    rw [List.nodup_cons] at hrnd
    exact hrnd.1
  have hseen1 : ∀ x ∈ chr.tail, x ∉ ([s] : List ℕ) := by
    intro x hx hxin
    simp only [List.mem_singleton] at hxin
    subst hxin
    rw [hchr] at hx
    exact hsnotin hx
  have hmwalk := msh_walk_on_chain
    (fun n => ((dloop (reverse_graph G) none (dinit D)).pred n).join) D chr s
    ((dloop (reverse_graph G) none (dinit D)).visited.length + 1) [s] [s]
    hrh hrl hflat hrnd hseen1 (by omega)
  have hrecon : reconstruct G D s = Except.ok chr := by
    rw [reconstruct, build_reverse_tree, reconstruct_from_msh_cache]
    rw [hmwalk]
    rw [hchr]
    rfl
  -- cost of the reconstruction chain in the original graph
  have hGcost_r : path_cost G chr = some ds := by
    rw [← path_cost_reverse G chr]
    exact hrcost
  -- cost of the forward chain in the reversed graph
  have hRcost_f : path_cost (reverse_graph G) chf = some dD := by
    have h1 := path_cost_reverse G chf.reverse
    rw [List.reverse_reverse] at h1
    rw [h1]
    exact hfcost
  -- the two distances agree
  have hle1 : dD ≤ ds :=
    fInv.settled_le D hDvis dD hdD chr ds hrh hrl hGcost_r
  have hle2 : ds ≤ dD :=
    rInv.settled_le s hsvis ds hds chf dD hfh hfl hRcost_f
  have heqd : ds = dD := le_antisymm hle2 hle1
  exact ⟨chr, chf.reverse, ds, hrecon, hdwe, hGcost_r, by rw [hfcost, heqd]⟩

/-- Closed witness for C1: the two-node graph with a single 5 m edge from node
0 to node 1, destination 1, source 0. -/
theorem tree_reconstruct_matches_dijkstra_witness :
    ∃ (p q : List ℕ) (L : ℚ),
      reconstruct cex_graph 1 0 = Except.ok p ∧
      dijkstra_with_exploration cex_graph 0 1 = Except.ok q ∧
      path_cost cex_graph p = some L ∧ path_cost cex_graph q = some L :=
  tree_reconstruct_matches_dijkstra cex_graph 1 0
    (by
      intro e he
      simp only [cex_graph, List.mem_singleton] at he
      rw [he]
      norm_num)
    ⟨[0, 1], rfl, rfl, by
      have hwm : wmin cex_graph 0 1 = some 5 := by
        rw [wmin, parallel_lengths]
        simp [cex_graph]
      rw [path_cost, hwm, path_cost]
      rfl⟩

/-! ## C3: reconstruction errors and the fast-path fallback in `calculate_route`
(router.py lines 1082-1096) -/

/-- Embeds the fast-path slice of `calculate_route`: try the precomputed-tree
reconstruction; on a RuntimeError fall back to the standard Dijkstra path
(`std_path`) with the plain networkx label. -/
def route_path_with_msh_cache (pred : ℕ → Option ℕ) (orig msh fuel : ℕ)
    (std_path : List ℕ) : List ℕ × String :=
  match reconstruct_from_msh_cache pred orig msh fuel with
  | Except.ok p => (p, "Dijkstra (precomputed MSH cache) // OSM")
  | Except.error _ => (std_path, "Dijkstra (networkx) // OSM")

/-- C3 counterexample: with an empty predecessor map and a source distinct from
the tree root, reconstruction raises NoPrecomputedPath, but `calculate_route`
catches the error and silently returns the standard-Dijkstra path instead of
surfacing the error to the caller. -/
theorem msh_error_not_surfaced :
    reconstruct_from_msh_cache (fun _ => none) 1 0 5
      = Except.error RecErr.noPrecomputedPath ∧
    route_path_with_msh_cache (fun _ => none) 1 0 5 [9]
      = ([9], "Dijkstra (networkx) // OSM") := by
  constructor <;> rfl

/-- C3 (amended): reconstruction does raise NoPrecomputedPath on a missing
predecessor and CycleDetected on a revisited node, but the error is not
surfaced: `calculate_route` catches it and falls back to the standard Dijkstra
path. -/
theorem msh_reconstruct_error_behaviour :
    (∀ (pred : ℕ → Option ℕ) (s m fuel : ℕ), s ≠ m → pred s = none →
      reconstruct_from_msh_cache pred s m (fuel + 1)
        = Except.error RecErr.noPrecomputedPath) ∧
    (∀ (pred : ℕ → Option ℕ) (s m fuel : ℕ), s ≠ m → pred s = some s →
      reconstruct_from_msh_cache pred s m (fuel + 1)
        = Except.error RecErr.cycleDetected) ∧
    (∀ (pred : ℕ → Option ℕ) (orig msh fuel : ℕ) (std : List ℕ) (e : RecErr),
      reconstruct_from_msh_cache pred orig msh fuel = Except.error e →
      route_path_with_msh_cache pred orig msh fuel std
        = (std, "Dijkstra (networkx) // OSM")) := by
  refine ⟨?_, ?_, ?_⟩
  · intro pred s m fuel hsm hpred
    rw [reconstruct_from_msh_cache, msh_walk, if_neg hsm, hpred]
  · intro pred s m fuel hsm hpred
    rw [reconstruct_from_msh_cache, msh_walk, if_neg hsm, hpred]
    dsimp only
    rw [if_pos (List.mem_singleton.mpr rfl)]
  · intro pred orig msh fuel std e h
    rw [route_path_with_msh_cache, h]

/-- Closed witness for the amended C3 at concrete inputs. -/
theorem msh_reconstruct_error_behaviour_witness :
    reconstruct_from_msh_cache (fun _ => none) 2 0 (4 + 1)
      = Except.error RecErr.noPrecomputedPath :=
  msh_reconstruct_error_behaviour.1 (fun _ => none) 2 0 4 (by norm_num) rfl

/-! ## C2: External Algorithm Bridge `_bmsssp_path` (router.py lines 584-661) -/

/-- `list(G.nodes)` in iteration order. -/
def node_list (G : Graph) : List ℕ := G.nodes.map GNode.nid

/-- Python list indexing, including negative indexing from the end; `none` is
an IndexError. -/
def pylist_get {α : Type} (l : List α) (i : ℤ) : Option α :=
  let j := if i < 0 then (l.length : ℤ) + i else i
  if j < 0 then none else l[j.toNat]?

/-- Outcome of the external worker call observed by `_bmsssp_path`: a timeout
on the response line, an empty line, malformed JSON, a missing or non-list
`predecessors` field, or a predecessor array. -/
inductive BridgeOutcome where
  | timeout
  | emptyLine
  | malformed
  | missingPred
  | preds (l : List ℤ)

/-- The `while cur != -1 and cur not in seen` reconstruction walk of
`_bmsssp_path`.  `none` models an IndexError on `pred[cur]` (which the code
turns into the fallback); fuel `len(pred) + 2` dominates the longest possible
walk, since every iteration adds a distinct value drawn from the array (plus
the initial target index) to `seen`. -/
def bmsssp_walk (l : List ℤ) (src_i : ℤ) :
    ℕ → ℤ → List ℤ → List ℤ → Option (List ℤ)
  | 0, _, _, _ => none
  | fuel + 1, cur, seen, acc =>
    if cur = -1 ∨ cur ∈ seen then some acc.reverse
    else if cur = src_i then some (cur :: acc).reverse
    else
      match pylist_get l cur with
      | none => none
      | some nxt => bmsssp_walk l src_i fuel nxt (cur :: seen) (cur :: acc)

/-- Reconstruction part of `_bmsssp_path`: walk the predecessor indices from
the target, require the walk to end at the source index, then map indices back
to node ids.  `none` is any of the RuntimeErrors caught by the enclosing try. -/
def bmsssp_reconstruct (G : Graph) (l : List ℤ) (src_i dst_i : ℤ) :
    Option (List ℕ) :=
  match bmsssp_walk l src_i (l.length + 2) dst_i [] [] with
  | none => none
  | some path_idx =>
    if path_idx = [] ∨ path_idx.getLast? ≠ some src_i then none
    else path_idx.reverse.mapM (fun i => pylist_get (node_list G) i)

/-- Everything inside the try block of `_bmsssp_path` that can produce a path:
`none` means some exception was raised and the except clause runs. -/
def bmsssp_try (G : Graph) (s t : ℕ) (outcome : BridgeOutcome) : Option (List ℕ) :=
  match outcome with
  | BridgeOutcome.preds l =>
    bmsssp_reconstruct G l ((node_list G).indexOf s : ℤ) ((node_list G).indexOf t : ℤ)
  | _ => none

/-- Model of `nx.shortest_path(G, s, t, weight="length")`: the built-in engine,
Dijkstra over the collapsed minimum parallel-edge weights (shared with the
embedding of `_dijkstra_with_exploration`; raises when `t` is unreachable). -/
def nx_shortest_path (G : Graph) (s t : ℕ) : Except String (List ℕ) :=
  dijkstra_with_exploration G s t

/-- The bridge failed in some way: the try block produced no path. -/
def bridge_fails (G : Graph) (s t : ℕ) (outcome : BridgeOutcome) : Prop :=
  bmsssp_try G s t outcome = none

/-- Embeds `_bmsssp_path`: the early source/target membership check raises
before the try block; any failure inside the try block falls back to the
built-in networkx shortest path. -/
def bmsssp_path (G : Graph) (s t : ℕ) (outcome : BridgeOutcome) :
    Except String (List ℕ) :=
  if s ∈ node_list G ∧ t ∈ node_list G then
    match bmsssp_try G s t outcome with
    | some p => Except.ok p
    | none => nx_shortest_path G s t
  else Except.error "source/target not in subgraph"

/-- C2: whenever the External Algorithm Bridge call fails in any way (timeout,
empty or malformed response, missing or non-list predecessors, or a
reconstruction that does not reach the source), `_bmsssp_path` does not raise:
it returns exactly the node sequence the built-in engine produces for the same
graph, source and target (whenever the built-in engine produces one; if the
target is unreachable both raise). -/
theorem bmsssp_fallback_matches_builtin (G : Graph) (s t : ℕ)
    (outcome : BridgeOutcome) (p : List ℕ)
    (hs : s ∈ node_list G) (ht : t ∈ node_list G)
    (hfail : bridge_fails G s t outcome)
    (hnx : nx_shortest_path G s t = Except.ok p) :
    bmsssp_path G s t outcome = Except.ok p := by
  rw [bmsssp_path, if_pos ⟨hs, ht⟩]
  rw [bridge_fails] at hfail
  rw [hfail]
  exact hnx

/-- Closed witness for C2: a timeout on the two-node graph with source and
target both node 0; the built-in engine returns the single-node path. -/
theorem bmsssp_fallback_matches_builtin_witness :
    bmsssp_path cex_graph 0 0 BridgeOutcome.timeout = Except.ok [0] := by
  have hrun : dijkstra_run cex_graph 0 0
      = ⟨upd (fun _ => none) 0 0, upd (fun _ => none) 0 none, [0], []⟩ := by
    rw [dijkstra_run, dloop.eq_def]
    have hp : heap_pop (dinit 0).heap = some ((0, 0), []) := rfl
    simp only [dinit, heap_pop]
    norm_num
  have hnx : nx_shortest_path cex_graph 0 0 = Except.ok [0] := by
    rw [nx_shortest_path, dijkstra_with_exploration]
    rw [hrun]
    dsimp only
    have hpr : (upd (fun _ => (none : Option (Option ℕ))) 0 none) 0 = some none :=
      upd_same _ _ _
    rw [hpr]
    dsimp only
    rw [walk_pred, hpr]
    rfl
  exact bmsssp_fallback_matches_builtin cex_graph 0 0 BridgeOutcome.timeout [0]
    (by simp [node_list, cex_graph]) (by simp [node_list, cex_graph]) rfl hnx

/-! ## C10: the precomputed-destination fast path overrides the snapped end
(router.py lines 361-364, 1074-1094, 1139-1140) -/

/-- Howard University Hospital coordinates (the fixed MSH destination). -/
def MSH_LAT : ℚ := 38.9185

def MSH_LNG : ℚ := -77.0195

/-- Embeds `_is_msh_destination`: both coordinates within 0.002 degrees. -/
def is_msh_destination (end_lat end_lng : ℚ) : Bool :=
  decide (|end_lat - MSH_LAT| < 0.002) && decide (|end_lng - MSH_LNG| < 0.002)

/-- Embeds `ox.nearest_nodes` for the distance function `d`: the node of `G`
nearest to the query point, first listed winning ties. -/
def nearest_node (d : ℚ × ℚ → ℚ × ℚ → ℚ) (G : Graph) (p : ℚ × ℚ) : ℕ :=
  match G.nodes with
  | [] => 0
  | n0 :: rest =>
    (rest.foldl (fun best nd =>
      if d (nd.x, nd.y) p < d (best.x, best.y) p then nd else best) n0).nid

/-- The fast-path tree build and reconstruction of `calculate_route`: the tree
root is the node nearest the fixed MSH coordinate, the source is the node the
start snapped to. -/
def msh_tree_recon (d : ℚ × ℚ → ℚ × ℚ → ℚ) (G : Graph) (start_lat start_lng : ℚ) :
    Except RecErr (List ℕ) :=
  let msh_node := nearest_node d G (MSH_LNG, MSH_LAT)
  let st := build_reverse_tree G msh_node
  reconstruct_from_msh_cache (fun n => (st.pred n).join)
    (nearest_node d G (start_lng, start_lat)) msh_node (st.visited.length + 1)

/-- Embeds the snapping slice of `calculate_route`: when the fast path is taken
and the reconstruction succeeds, `dest_node` is overridden to the tree root, so
the returned `snapped_end` is the coordinate of the node nearest the fixed MSH
coordinate rather than of the node nearest the requested end. -/
def calc_snapped_end (d : ℚ × ℚ → ℚ × ℚ → ℚ) (G : Graph)
    (start_lat start_lng end_lat end_lng : ℚ) (algorithm : String)
    (blocked : List (ℚ × ℚ)) : ℚ × ℚ :=
  let dest_node := nearest_node d G (end_lng, end_lat)
  if algorithm = "dijkstra" ∧ is_msh_destination end_lat end_lng = true ∧ blocked = [] then
    match msh_tree_recon d G start_lat start_lng with
    | Except.ok _ => node_xy G (nearest_node d G (MSH_LNG, MSH_LAT))
    | Except.error _ => node_xy G dest_node
  else node_xy G dest_node

/-- Concrete graph for C10: node 0 exactly at the MSH coordinate, node 1
offset 0.0015 degrees east (within the 0.002 matching threshold). -/
def msh_graph : Graph :=
  { nodes := [⟨0, MSH_LNG, MSH_LAT⟩, ⟨1, MSH_LNG + 3 / 2000, MSH_LAT⟩], edges := [] }

theorem msh_walk_at_root (pred : ℕ → Option ℕ) (m fuel : ℕ) (seen acc : List ℕ) :
    msh_walk pred m fuel m seen acc = Except.ok acc.reverse := by
  cases fuel with
  | zero => rw [msh_walk, if_pos rfl]
  | succ f => rw [msh_walk, if_pos rfl]

/-- C10: whenever the fast path is taken (algorithm dijkstra, end within the
MSH threshold, no blocked edges, reconstruction succeeds), the snapped end is
the coordinate of the node nearest the fixed MSH coordinate; and on a concrete
graph this differs from the node nearest the coordinate the caller requested. -/
theorem msh_snapped_end_override (d : ℚ × ℚ → ℚ × ℚ → ℚ) (G : Graph)
    (slat slng elat elng : ℚ) (blocked : List (ℚ × ℚ))
    (h2 : is_msh_destination elat elng = true) (h3 : blocked = [])
    (h4 : ∃ p, msh_tree_recon d G slat slng = Except.ok p) :
    calc_snapped_end d G slat slng elat elng "dijkstra" blocked
      = node_xy G (nearest_node d G (MSH_LNG, MSH_LAT)) ∧
    calc_snapped_end sq_dist msh_graph MSH_LAT MSH_LNG MSH_LAT (MSH_LNG + 3 / 2000)
        "dijkstra" []
      ≠ node_xy msh_graph (nearest_node sq_dist msh_graph (MSH_LNG + 3 / 2000, MSH_LAT)) := by
  constructor
  · obtain ⟨p, hp⟩ := h4
    rw [calc_snapped_end, if_pos ⟨rfl, h2, h3⟩]
    rw [hp]
  · have hnear_msh : nearest_node sq_dist msh_graph (MSH_LNG, MSH_LAT) = 0 := by
      rw [nearest_node, msh_graph]
      norm_num [sq_dist, MSH_LNG, MSH_LAT]
    have hnear_end : nearest_node sq_dist msh_graph (MSH_LNG + 3 / 2000, MSH_LAT) = 1 := by
      rw [nearest_node, msh_graph]
      norm_num [sq_dist, MSH_LNG, MSH_LAT]
    have hrecon : ∃ p, msh_tree_recon sq_dist msh_graph MSH_LAT MSH_LNG
        = Except.ok p := by
      refine ⟨[0], ?_⟩
      rw [msh_tree_recon]
      rw [hnear_msh]
      rw [reconstruct_from_msh_cache, msh_walk_at_root]
      rfl
    obtain ⟨p, hp⟩ := hrecon
    have hmsh_cond : is_msh_destination MSH_LAT (MSH_LNG + 3 / 2000) = true := by
      rw [is_msh_destination]
      norm_num [abs_lt]
    rw [calc_snapped_end, if_pos ⟨rfl, hmsh_cond, rfl⟩, hp]
    rw [hnear_msh, hnear_end]
    rw [node_xy, node_xy, msh_graph]
    norm_num [MSH_LNG]

/-- Closed witness for C10 at the concrete two-node graph. -/
theorem msh_snapped_end_override_witness :
    calc_snapped_end sq_dist msh_graph MSH_LAT MSH_LNG MSH_LAT (MSH_LNG + 3 / 2000)
        "dijkstra" []
      = node_xy msh_graph (nearest_node sq_dist msh_graph (MSH_LNG, MSH_LAT)) ∧
    calc_snapped_end sq_dist msh_graph MSH_LAT MSH_LNG MSH_LAT (MSH_LNG + 3 / 2000)
        "dijkstra" []
      ≠ node_xy msh_graph (nearest_node sq_dist msh_graph (MSH_LNG + 3 / 2000, MSH_LAT)) :=
  msh_snapped_end_override sq_dist msh_graph MSH_LAT MSH_LNG MSH_LAT (MSH_LNG + 3 / 2000)
    [] (by rw [is_msh_destination]; norm_num [abs_lt]) rfl
    ⟨[0], by
      have hnear_msh : nearest_node sq_dist msh_graph (MSH_LNG, MSH_LAT) = 0 := by
        rw [nearest_node, msh_graph]
        norm_num [sq_dist, MSH_LNG, MSH_LAT]
      rw [msh_tree_recon, hnear_msh, reconstruct_from_msh_cache, msh_walk_at_root]
      rfl⟩

end VitalPath
